import Mathlib

/-!
Verification development for the Zotero-AI-organizer taxonomy engine.

Shallow embedding of the taxonomy synthesis-and-synchronization engine:
`zotero_connector.py` (the Library Store mirror: collections, items,
collection creation / deletion / membership / keyword updates) and
`library_organizer.py` (response extraction, taxonomy flattening and path
resolution, structure synchronization, classification matching).

Python dicts preserve insertion order, so dict-valued state is modelled as
ordered association lists with Python-dict insert semantics (an insert of an
existing key overwrites its value in place, a new key is appended).
Python exceptions are modelled with `Except`; SQLite row ids are modelled as
a monotonically increasing counter on the library state.
-/

namespace ZoteroOrganizer

/-- A `TaxonomyNode`: the recursive JSON-dict structure proposed by the
generative service — an ordered mapping from child name to subtree
(an empty mapping is a leaf marker). -/
inductive TNode where
  | node : List (String × TNode) → TNode

mutual

/-- Total number of named entries across all depths of a taxonomy node. -/
def sizeT : TNode → Nat
  | .node cs => sizeL cs

/-- Total number of named entries across all depths of an entry list. -/
def sizeL : List (String × TNode) → Nat
  | [] => 0
  | (_, t) :: rest => 1 + sizeT t + sizeL rest

end

mutual

/-- Depth of a taxonomy node (number of levels below it). -/
def depthT : TNode → Nat
  | .node cs => depthL cs

/-- Depth bound for an entry list: max over entries of one plus the entry's
subtree depth. -/
def depthL : List (String × TNode) → Nat
  | [] => 0
  | (_, t) :: rest => max (1 + depthT t) (depthL rest)

end

mutual

/-- A strengthened well-formedness of a taxonomy node: every name contains
no path separator (the documented data-model invariant), and additionally
every name is nonempty and sibling names are unique.  Nonemptiness is NOT
part of the documented invariant — it is the extra condition that path
distinctness requires (see the C5 correction); sibling uniqueness is
automatic for a Python dict. -/
def wfT : TNode → Bool
  | .node cs => wfL cs

/-- Strengthened well-formedness of an entry list (see `wfT`). -/
def wfL : List (String × TNode) → Bool
  | [] => true
  | (name, t) :: rest =>
      (!decide (name = "")) && decide ('/' ∉ name.data)
        && (!(rest.any (fun p => p.1 == name))) && wfT t && wfL rest

end

mutual

/-- Exactly the documented data-model invariant and nothing more: every
name in the taxonomy is free of the path separator. -/
def sepFreeT : TNode → Bool
  | .node cs => sepFreeL cs

/-- Entry-list version of `sepFreeT`. -/
def sepFreeL : List (String × TNode) → Bool
  | [] => true
  | (name, t) :: rest =>
      decide ('/' ∉ name.data) && sepFreeT t && sepFreeL rest

end

/-! ### Ordered association lists with Python-dict insert semantics -/

/-- Python dict assignment `m[k] = v`: overwrite in place if the key exists,
append otherwise. -/
def dictInsert (k : String) (v : Nat) : List (String × Nat) → List (String × Nat)
  | [] => [(k, v)]
  | (k', v') :: rest =>
      if k' = k then (k', v) :: rest else (k', v') :: dictInsert k v rest

/-- Python dict `m.update(m2)`: insert every entry of `m2` into `m` in order. -/
def dictUpdate (m m2 : List (String × Nat)) : List (String × Nat) :=
  m2.foldl (fun acc p => dictInsert p.1 p.2 acc) m

/-- Python dict lookup `m[k]` / membership `k in m`. -/
def dictLookup (k : String) : List (String × Nat) → Option Nat
  | [] => none
  | (k', v) :: rest => if k' = k then some v else dictLookup k rest

/-! ### The Library Store model (`zotero_connector.py`) -/

/-- `ZoteroCollection`: identifier, name, optional parent identifier. -/
structure Collection where
  collection_id : Nat
  name : String
  parent_id : Option Nat
deriving Repr, DecidableEq

/-- `ZoteroItem`: a paper with its keyword tags and the names of the
collections it belongs to (the in-memory mirror kept by the connector). -/
structure Item where
  item_id : Nat
  title : String
  keywords : List String
  collections : List String
deriving Repr, DecidableEq

/-- The Library Store state: the collections dict in insertion order, the
`collectionItems` membership rows `(itemID, collectionID)` in insertion
order, the items, and the next row id the store will assign. -/
structure Library where
  collections : List Collection
  collectionItems : List (Nat × Nat)
  items : List Item
  nextId : Nat
deriving Repr, DecidableEq

/-- Dict lookup `self.items[item_id]` (item ids are unique dict keys). -/
def findItem (lib : Library) (item_id : Nat) : Option Item :=
  lib.items.find? (fun it => it.item_id == item_id)

/-- Dict membership `coll_id in self.collections`. -/
def collMember (lib : Library) (cid : Nat) : Bool :=
  lib.collections.any (fun c => c.collection_id == cid)

/-- Dict lookup `self.collections[cid]`. -/
def findColl (lib : Library) (cid : Nat) : Option Collection :=
  lib.collections.find? (fun c => c.collection_id == cid)

/-- `ZoteroLibrary.create_collection`: insert a new collection row (the
store assigns the next row id) and mirror it in the collections dict. -/
def create_collection (lib : Library) (name : String) (parent_id : Option Nat) :
    Nat × Library :=
  let cid := lib.nextId
  (cid, { lib with
            collections := lib.collections ++ [⟨cid, name, parent_id⟩],
            nextId := lib.nextId + 1 })

/-- `ZoteroLibrary.delete_all_collections`: delete every membership row and
every collection, and clear each item's in-memory collection-name list. -/
def delete_all_collections (lib : Library) : Library :=
  { lib with
      collections := [],
      collectionItems := [],
      items := lib.items.map (fun it => { it with collections := [] }) }

mutual

/-- `ZoteroLibrary.create_collection_structure`: recursively create one
collection per taxonomy entry, passing the freshly created id as the parent
for the entry's children, and return the accumulated name-to-id dict. -/
def create_collection_structure (t : TNode) (parent_id : Option Nat)
    (lib : Library) : List (String × Nat) × Library :=
  match t with
  | .node cs => ccsGo cs parent_id [] lib

/-- Loop body of `create_collection_structure`: `collection_map[name] = id`
then `collection_map.update(subcollection_map)`, iterating the entries in
order while threading the store state. -/
def ccsGo (cs : List (String × TNode)) (parent_id : Option Nat)
    (collection_map : List (String × Nat)) (lib : Library) :
    List (String × Nat) × Library :=
  match cs with
  | [] => (collection_map, lib)
  | (name, t) :: rest =>
      let (cid, lib1) := create_collection lib name parent_id
      let collection_map1 := dictInsert name cid collection_map
      let (subcollection_map, lib2) := create_collection_structure t (some cid) lib1
      let collection_map2 := dictUpdate collection_map1 subcollection_map
      ccsGo rest parent_id collection_map2 lib2

end

/-- `LibraryOrganizer.implement_collection_structure`: delete the existing
collections, then create the new structure; the name-to-id map's size is the
created-collection count the synchronizer reports. -/
def implement_collection_structure (structure_ : TNode) (lib : Library) :
    List (String × Nat) × Library :=
  create_collection_structure structure_ none (delete_all_collections lib)

/-- `ZoteroLibrary.update_item_collections`: raise for an unknown item id;
delete the item's membership rows; re-insert one row per collection id that
exists in the store, silently skipping unknown ids; mirror the resulting
collection names on the item. -/
def update_item_collections (lib : Library) (item_id : Nat)
    (collection_ids : List Nat) : Except String Library :=
  match findItem lib item_id with
  | none => .error ("Item " ++ toString item_id ++ " not found")
  | some _ =>
      let kept := lib.collectionItems.filter (fun r => r.1 != item_id)
      let inserted := (collection_ids.filter (fun cid => collMember lib cid)).map
        (fun cid => (item_id, cid))
      let names := collection_ids.filterMap
        (fun cid => (findColl lib cid).map (fun c => c.name))
      .ok { lib with
              collectionItems := kept ++ inserted,
              items := lib.items.map
                (fun it => if it.item_id == item_id
                  then { it with collections := names } else it) }

/-- `list(set(xs))`: the de-duplicated element list. Python's set iteration
order is arbitrary; the element set is what the code relies on, and this
model fixes one order (keeping the last occurrence of each element). -/
def pyListSet : List String → List String
  | [] => []
  | a :: l => if a ∈ l then pyListSet l else a :: pyListSet l

/-- `ZoteroLibrary.update_item_keywords`: raise for an unknown item id;
combine the item's existing keywords with the new ones, de-duplicated via
`list(set(...))`; rewrite the tag rows and mirror the combined list on the
item. -/
def update_item_keywords (lib : Library) (item_id : Nat)
    (new_keywords : List String) : Except String Library :=
  match findItem lib item_id with
  | none => .error ("Item " ++ toString item_id ++ " not found")
  | some item =>
      let combined_keywords := pyListSet (item.keywords ++ new_keywords)
      .ok { lib with
              items := lib.items.map
                (fun it => if it.item_id == item_id
                  then { it with keywords := combined_keywords } else it) }

/-! ### Taxonomy Flattener (`classify_paper_in_collections.flatten_collections`) -/

/-- Path construction in the flattener:
`full_path = f"{prefix}/{name}" if prefix else name`. -/
def joinPath (pre name : String) : String :=
  if pre = "" then name else pre ++ "/" ++ name

/-- Inner resolution loop of the flattener: for every collection in the
store (in iteration order) whose name equals the path's final name
component, assign `collection_map[full_path] = coll.collection_id`.
There is no break, so each later match overwrites the earlier one. -/
def resolveName (cols : List Collection) (name full_path : String)
    (m : List (String × Nat)) : List (String × Nat) :=
  match cols with
  | [] => m
  | c :: rest =>
      resolveName rest name full_path
        (if c.name = name then dictInsert full_path c.collection_id m else m)

mutual

/-- `flatten_collections` on one subtree: walk with the current path prefix,
threading the accumulated `(collection_paths, collection_map)` state. -/
def fcNode (t : TNode) (pre : String) (cols : List Collection)
    (st : List String × List (String × Nat)) : List String × List (String × Nat) :=
  match t with
  | .node cs => fcList cs pre cols st

/-- `flatten_collections` loop body: append the full path, run the
resolution loop, recurse into the subtree, then continue with the rest. -/
def fcList (cs : List (String × TNode)) (pre : String) (cols : List Collection)
    (st : List String × List (String × Nat)) : List String × List (String × Nat) :=
  match cs with
  | [] => st
  | (name, t) :: rest =>
      let full_path := joinPath pre name
      let st1 := (st.1 ++ [full_path], resolveName cols name full_path st.2)
      let st2 := fcNode t full_path cols st1
      fcList rest pre cols st2

end

/-- The Taxonomy Flattener: from a proposal structure and the store's
collection list, produce the ordered path list and the path-to-identifier
map. -/
def flatten_collections (t : TNode) (cols : List Collection) :
    List String × List (String × Nat) :=
  fcNode t "" cols ([], [])

/-- The ordered path list alone (the path component of the flattener's
state is independent of the store's collections). -/
def flattenPaths (t : TNode) : List String :=
  (flatten_collections t []).1

/-! ### Classification Matcher (`classify_paper_in_collections`) -/

/-- Splitting a character list on a separator character, Python
`text.split(sep)` style: `n` separators yield `n + 1` pieces. -/
def splitOnChar (sep : Char) : List Char → List (List Char)
  | [] => [[]]
  | c :: rest =>
      if c = sep then [] :: splitOnChar sep rest
      else
        match splitOnChar sep rest with
        | [] => [[c]]
        | piece :: pieces => (c :: piece) :: pieces

/-- Python `str.isspace` characters stripped by `str.strip()`. -/
def pyIsSpace (c : Char) : Bool :=
  c = ' ' || c = '\t' || c = '\n' || c = '\r' || c = '\x0b' || c = '\x0c'

/-- Python `str.strip()`: drop leading and trailing whitespace. -/
def pyStrip (cs : List Char) : List Char :=
  ((cs.dropWhile pyIsSpace).reverse.dropWhile pyIsSpace).reverse

/-- Reading the generative reply as candidate paths:
`[line.strip() for line in text.split('\n') if line.strip()]`. -/
def replyLines (reply : List Char) : List String :=
  ((splitOnChar '\n' reply).map (fun l => String.mk (pyStrip l))).filter
    (fun s => s != "")

/-- `classify_paper_in_collections`, after the generative round-trip:
look the paper up (a fault for an unknown id), flatten the proposal against
the store, keep only reply lines present in the path-to-identifier map, and
either replace the paper's membership with the resolved identifiers or—when
none resolve—leave the store untouched and report a no-match outcome
(`false`). -/
def classify_paper_in_collections (structure_ : TNode) (paper_id : Nat)
    (reply : List Char) (lib : Library) : Except String (Library × Bool) :=
  match findItem lib paper_id with
  | none => .error ("Item " ++ toString paper_id ++ " not found")
  | some _ =>
      let collection_map := (flatten_collections structure_ lib.collections).2
      let collections := replyLines reply
      let collection_ids := collections.filterMap (fun c => dictLookup c collection_map)
      if collection_ids = [] then .ok (lib, false)
      else (update_item_collections lib paper_id collection_ids).map (fun l => (l, true))

/-! ### Response Extractor (`propose_collection_structure`, parsing part)

The extraction pipeline operates on the raw reply text: strip whitespace,
take the first fenced code block when one is present (dropping a leading
language tag), locate the first opening brace, scan forward with a nesting
counter to find the matching close, and parse the span as JSON.  Every
failure (no object found, parse error) is caught by the surrounding
`try/except` and turned into the sentinel dict
`{"Error": "Failed to parse structure"}`. -/

/-- The backquote character (the fence delimiter is three of these). -/
def backquote : Char := Char.ofNat 96

/-- The opening-brace character. -/
def lbrace : Char := Char.ofNat 123

/-- The closing-brace character. -/
def rbrace : Char := Char.ofNat 125

/-- The fenced-code-block delimiter, three backquotes. -/
def fenceSep : List Char := [backquote, backquote, backquote]

/-- Split a character list at the first occurrence of `sep`, returning the
part before and the part after (without the separator); `none` when `sep`
does not occur. -/
def splitFirstSeq (sep : List Char) : List Char → Option (List Char × List Char)
  | [] => none
  | c :: rest =>
      if sep.isPrefixOf (c :: rest) then some ([], (c :: rest).drop sep.length)
      else
        match splitFirstSeq sep rest with
        | some (pre, post) => some (c :: pre, post)
        | none => none

/-- The fence-handling step: when the text contains a fence delimiter, take
`text.split(fence)[1]` (the content of the first fenced block), drop a
leading `json` language tag, and strip the result; otherwise keep the text
unchanged. -/
def fenceStrip (cs : List Char) : List Char :=
  match splitFirstSeq fenceSep cs with
  | none => cs
  | some (_, post) =>
      let piece :=
        match splitFirstSeq fenceSep post with
        | some (p1, _) => p1
        | none => post
      let piece :=
        if ['j', 's', 'o', 'n'].isPrefixOf piece then piece.drop 4 else piece
      pyStrip piece

/-- Python `text.find(c)`: index of the first occurrence, or `-1`. -/
def pyFind (cs : List Char) (c : Char) : Int :=
  match cs.findIdx? (fun x => x == c) with
  | some i => (i : Int)
  | none => -1

/-- The nesting-counter scan from `propose_collection_structure`: increment
on every opening brace, decrement on every closing brace, and return `i + 1`
for the position `i` where the counter returns to zero (the loop's `break`).
The scan counts braces inside quoted strings too — the known limitation
recorded in the spec. -/
def braceScan : List Char → Int → Int → Option Int
  | [], _, _ => none
  | c :: rest, count, i =>
      if c = lbrace then braceScan rest (count + 1) (i + 1)
      else if c = rbrace then
        if count - 1 = 0 then some (i + 1) else braceScan rest (count - 1) (i + 1)
      else braceScan rest count (i + 1)

/-- Locate the candidate JSON object span `text[start:end]`.  `start` is the
index of the first opening brace (`-1` when absent, in which case the
Python loop `range(start, len(text))` starts at index `-1`, i.e. at the last
character, before wrapping to the front; an empty text raises an IndexError
there, caught by the same handler).  The span is returned only when
`start >= 0 and end > start`. -/
def extract_json_span (text : List Char) : Option (List Char) :=
  let start := pyFind text lbrace
  let scanChars :=
    if start < 0 then (text.getLast?.toList) ++ text else text.drop start.toNat
  let endIdx :=
    match braceScan scanChars 0 start with
    | some e => e
    | none => start
  if start ≥ 0 && endIdx > start then
    some ((text.drop start.toNat).take (endIdx - start).toNat)
  else none

/-- A structured value as produced by `json.loads`.  Numeric literals are
modelled as integers only (taxonomy proposals contain no numbers; a float
literal is treated as a parse failure). -/
inductive PyVal where
  | dict : List (String × PyVal) → PyVal
  | arr : List PyVal → PyVal
  | str : String → PyVal
  | int : Int → PyVal
  | bool : Bool → PyVal
  | null : PyVal

/-- JSON insignificant whitespace. -/
def jsonWs (c : Char) : Bool :=
  c = ' ' || c = '\t' || c = '\n' || c = '\r'

/-- Skip JSON whitespace. -/
def jsonSkipWs (cs : List Char) : List Char :=
  cs.dropWhile jsonWs

/-- Single-character JSON string escapes. -/
def jsonEscape (c : Char) : Option Char :=
  if c = '"' then some '"'
  else if c = '\\' then some '\\'
  else if c = '/' then some '/'
  else if c = 'b' then some (Char.ofNat 8)
  else if c = 'f' then some (Char.ofNat 12)
  else if c = 'n' then some '\n'
  else if c = 'r' then some '\r'
  else if c = 't' then some '\t'
  else none

/-- Parse the body of a JSON string after the opening quote, returning the
decoded characters and the remainder after the closing quote. -/
def jsonStringBody : List Char → Option (List Char × List Char)
  | [] => none
  | c :: rest =>
      if c = '"' then some ([], rest)
      else if c = '\\' then
        match rest with
        | [] => none
        | e :: rest' =>
            match jsonEscape e with
            | none => none
            | some d =>
                match jsonStringBody rest' with
                | none => none
                | some (body, rem) => some (d :: body, rem)
      else
        match jsonStringBody rest with
        | none => none
        | some (body, rem) => some (c :: body, rem)

/-- Parse an optionally signed integer literal; fails when a fraction or
exponent follows (floats are outside the model). -/
def jsonInt (cs : List Char) : Option (Int × List Char) :=
  let (neg, cs') :=
    match cs with
    | c :: rest => if c = '-' then (true, rest) else (false, cs)
    | [] => (false, cs)
  let digits := cs'.takeWhile (fun c => c.isDigit)
  let rest := cs'.dropWhile (fun c => c.isDigit)
  if digits = [] then none
  else
    match rest with
    | c :: _ => if c = '.' || c = 'e' || c = 'E' then none else
        some (((if neg then -1 else 1) * (String.mk digits).toNat!), rest)
    | [] => some (((if neg then -1 else 1) * (String.mk digits).toNat!), rest)

mutual

/-- Fuel-indexed JSON value parser standing in for `json.loads`. -/
def jsonVal : Nat → List Char → Option (PyVal × List Char)
  | 0, _ => none
  | fuel + 1, cs =>
      match jsonSkipWs cs with
      | [] => none
      | c :: rest =>
          if c = lbrace then
            match jsonSkipWs rest with
            | d :: rest' =>
                if d = rbrace then some (.dict [], rest')
                else
                  match jsonDictItems fuel (d :: rest') with
                  | some (entries, rem) => some (.dict entries, rem)
                  | none => none
            | [] => none
          else if c = '[' then
            match jsonSkipWs rest with
            | d :: rest' =>
                if d = ']' then some (.arr [], rest')
                else
                  match jsonArrItems fuel (d :: rest') with
                  | some (vals, rem) => some (.arr vals, rem)
                  | none => none
            | [] => none
          else if c = '"' then
            match jsonStringBody rest with
            | some (body, rem) => some (.str (String.mk body), rem)
            | none => none
          else if ['t', 'r', 'u', 'e'].isPrefixOf (c :: rest) then
            some (.bool true, (c :: rest).drop 4)
          else if ['f', 'a', 'l', 's', 'e'].isPrefixOf (c :: rest) then
            some (.bool false, (c :: rest).drop 5)
          else if ['n', 'u', 'l', 'l'].isPrefixOf (c :: rest) then
            some (.null, (c :: rest).drop 4)
          else
            match jsonInt (c :: rest) with
            | some (n, rem) => some (.int n, rem)
            | none => none

/-- Parse one or more comma-separated `"key": value` pairs and the closing
brace. -/
def jsonDictItems : Nat → List Char → Option (List (String × PyVal) × List Char)
  | 0, _ => none
  | fuel + 1, cs =>
      match jsonSkipWs cs with
      | c :: rest =>
          if c = '"' then
            match jsonStringBody rest with
            | none => none
            | some (key, rem) =>
                match jsonSkipWs rem with
                | d :: rem' =>
                    if d = ':' then
                      match jsonVal fuel rem' with
                      | none => none
                      | some (v, rem'') =>
                          match jsonSkipWs rem'' with
                          | e :: rem''' =>
                              if e = ',' then
                                match jsonDictItems fuel rem''' with
                                | some (entries, rem4) =>
                                    some ((String.mk key, v) :: entries, rem4)
                                | none => none
                              else if e = rbrace then
                                some ([(String.mk key, v)], rem''')
                              else none
                          | [] => none
                    else none
                | [] => none
          else none
      | [] => none

/-- Parse one or more comma-separated array values and the closing bracket. -/
def jsonArrItems : Nat → List Char → Option (List PyVal × List Char)
  | 0, _ => none
  | fuel + 1, cs =>
      match jsonVal fuel cs with
      | none => none
      | some (v, rem) =>
          match jsonSkipWs rem with
          | e :: rem' =>
              if e = ',' then
                match jsonArrItems fuel rem' with
                | some (vals, rem'') => some (v :: vals, rem'')
                | none => none
              else if e = ']' then some ([v], rem')
              else none
          | [] => none

end

/-- `json.loads`: parse a complete JSON value with nothing but whitespace
after it. -/
def pyJsonLoads (cs : List Char) : Option PyVal :=
  match jsonVal (cs.length + 1) cs with
  | some (v, rem) => if jsonSkipWs rem = [] then some v else none
  | none => none

/-- The sentinel failure result `{"Error": "Failed to parse structure"}`
returned by the `except` handler. -/
def jsonErrorSentinel : PyVal := .dict [("Error", .str "Failed to parse structure")]

/-- The Response Extractor: the parsing part of
`propose_collection_structure` applied to the reply text.  Any failure on
the way (no object found, parse error) yields the sentinel failure dict;
no fault escapes. -/
def propose_extract (raw : List Char) : PyVal :=
  let text := pyStrip raw
  let text := fenceStrip text
  match extract_json_span text with
  | some span =>
      match pyJsonLoads span with
      | some v => v
      | none => jsonErrorSentinel
  | none => jsonErrorSentinel

/-! ### Specification-side descriptions of the synchronizer's output

`dfsCols` names the collection rows `create_collection_structure` appends:
one row per entry in depth-first order, ids assigned consecutively from the
store's next row id.  `buildForest` reads a collection list back into a
taxonomy by following parent links, which is how claim C1's round-trip is
stated. -/

mutual

/-- The collection rows created for one subtree, given its parent id and
the first fresh id. -/
def dfsColsNode : TNode → Option Nat → Nat → List Collection
  | .node cs, p, n => dfsColsList cs p n

/-- The collection rows created for an entry list (see `dfsColsNode`). -/
def dfsColsList : List (String × TNode) → Option Nat → Nat → List Collection
  | [], _, _ => []
  | (name, t) :: rest, p, n =>
      ⟨n, name, p⟩ :: (dfsColsNode t (some n) (n + 1) ++ dfsColsList rest p (n + 1 + sizeT t))
end

/-- The rows of the direct entries of one group: entry `i` carries the
group's parent id and its assigned fresh id. -/
def topRows : List (String × TNode) → Option Nat → Nat → List Collection
  | [], _, _ => []
  | (name, t) :: rest, p, n => ⟨n, name, p⟩ :: topRows rest p (n + 1 + sizeT t)

mutual

/-- Locate the subtree whose entry was assigned id `m`, starting from a
group whose first fresh id is `n`. -/
def nodeAtList : List (String × TNode) → Nat → Nat → Option TNode
  | [], _, _ => none
  | (_, t) :: rest, n, m =>
      if m = n then some t
      else if m < n + 1 + sizeT t then nodeAtNode t (n + 1) m
      else nodeAtList rest (n + 1 + sizeT t) m

/-- Locate an entry by id inside one subtree (see `nodeAtList`). -/
def nodeAtNode : TNode → Nat → Nat → Option TNode
  | .node cs, n, m => nodeAtList cs n m

end

/-- Locate a direct entry of a group by its assigned id (no descent). -/
def directAt : List (String × TNode) → Nat → Nat → Option TNode
  | [], _, _ => none
  | (_, t) :: rest, n, m =>
      if m = n then some t else directAt rest (n + 1 + sizeT t) m

/-- Read a collection list back into a taxonomy: the children of parent `p`
are the collections whose `parent_id` is `p`, in list order; `fuel` bounds
the descent depth. -/
def buildForest (cols : List Collection) : Nat → Option Nat → TNode
  | 0, _ => .node []
  | fuel + 1, p =>
      .node ((cols.filter (fun c => c.parent_id = p)).map
        (fun c => (c.name, buildForest cols fuel (some c.collection_id))))

/-! ### Specification-side descriptions of the flattener's output -/

mutual

/-- The `(full_path, final name component)` pairs the flattener visits, in
visit order. -/
def flatEntriesN : TNode → String → List (String × String)
  | .node cs, pre => flatEntriesL cs pre

/-- Entry-list version of `flatEntriesN`. -/
def flatEntriesL : List (String × TNode) → String → List (String × String)
  | [], _ => []
  | (name, t) :: rest, pre =>
      let full := joinPath pre name
      (full, name) :: (flatEntriesN t full ++ flatEntriesL rest pre)

end

mutual

/-- Paths as component lists: every prefix-extended name sequence reachable
in the taxonomy, in visit order. -/
def compPathsN : TNode → List String → List (List String)
  | .node cs, pre => compPathsL cs pre

/-- Entry-list version of `compPathsN`. -/
def compPathsL : List (String × TNode) → List String → List (List String)
  | [], _ => []
  | (name, t) :: rest, pre =>
      (pre ++ [name]) :: (compPathsN t (pre ++ [name]) ++ compPathsL rest pre)

end

/-- Serialize a component list as a `/`-joined path string. -/
def renderPath : List String → String
  | [] => ""
  | [n] => n
  | n :: m :: rest => n ++ "/" ++ renderPath (m :: rest)

/-- The identifier the resolution loop leaves in the map for a final name
component: the identifier of the last collection with that name in store
iteration order (a later match takes precedence over every earlier one). -/
def lastMatchId (cols : List Collection) (name : String) : Option Nat :=
  match cols with
  | [] => none
  | c :: rest =>
      match lastMatchId rest name with
      | some v => some v
      | none => if c.name = name then some c.collection_id else none

/-! ### Lemmas about keyword de-duplication and item lookup -/

theorem mem_pyListSet {x : String} : ∀ {l : List String}, x ∈ pyListSet l ↔ x ∈ l := by
  intro l
  induction l with
  | nil => simp [pyListSet]
  | cons a l ih =>
      by_cases h : a ∈ l
      · simp only [pyListSet, if_pos h]
        rw [ih]
        constructor
        · exact fun hx => List.mem_cons_of_mem a hx
        · intro hx
          rcases List.mem_cons.mp hx with rfl | hx
          · exact h
          · exact hx
      · simp only [pyListSet, if_neg h, List.mem_cons]
        rw [ih]

theorem nodup_pyListSet : ∀ (l : List String), (pyListSet l).Nodup := by
  intro l
  induction l with
  | nil => simp [pyListSet]
  | cons a l ih =>
      by_cases h : a ∈ l
      · simpa [pyListSet, if_pos h] using ih
      · simp only [pyListSet, if_neg h]
        exact List.Nodup.cons (fun hx => h (mem_pyListSet.mp hx)) ih

theorem find?_map_update (l : List Item) (i : Nat) (g : Item → Item)
    (hg : ∀ it, (g it).item_id = it.item_id) :
    (l.map (fun it => if it.item_id == i then g it else it)).find?
        (fun it => it.item_id == i)
      = (l.find? (fun it => it.item_id == i)).map g := by
  induction l with
  | nil => rfl
  | cons a l ih =>
      by_cases h : a.item_id = i
      · have hgb : ((g a).item_id == i) = true := by
          rw [hg a]; simpa using h
        simp [List.find?_cons, h, hgb]
      · have hb : (a.item_id == i) = false := by simpa using h
        simp only [List.map_cons, if_neg (by simp [hb] : ¬ (a.item_id == i) = true)]
        rw [List.find?_cons, List.find?_cons]
        simp only [hb]
        exact ih

/-- One keyword update on a known paper: the result is a success whose
updated item carries the de-duplicated combined list. -/
theorem update_item_keywords_spec (lib : Library) (item_id : Nat)
    (kws : List String) (item : Item) (h : findItem lib item_id = some item) :
    ∃ lib', update_item_keywords lib item_id kws = .ok lib' ∧
      findItem lib' item_id
        = some { item with keywords := pyListSet (item.keywords ++ kws) } := by
  have key := find?_map_update lib.items item_id
    (fun it => { it with keywords := pyListSet (item.keywords ++ kws) }) (fun it => rfl)
  have h' : lib.items.find? (fun it => it.item_id == item_id) = some item := h
  rw [h', Option.map_some'] at key
  simp only [update_item_keywords, h]
  exact ⟨_, rfl, key⟩

/-! ### Claims C8 and C10: keyword updates -/

/-- Claim C8: for every known paper and keyword list, the tag update is
monotonic and idempotent under exact-string de-duplication — after the
update the keyword list is duplicate-free, every prior keyword is still
present, and applying the same update again leaves the keyword set
unchanged. -/
theorem C8_keywords_monotone_idempotent (lib : Library) (item_id : Nat)
    (new_keywords : List String) (item : Item)
    (h : findItem lib item_id = some item) :
    ∃ lib' item' lib'' item'',
      update_item_keywords lib item_id new_keywords = .ok lib' ∧
      findItem lib' item_id = some item' ∧
      update_item_keywords lib' item_id new_keywords = .ok lib'' ∧
      findItem lib'' item_id = some item'' ∧
      item'.keywords.Nodup ∧ item''.keywords.Nodup ∧
      (∀ k ∈ item.keywords, k ∈ item'.keywords) ∧
      (∀ k, k ∈ item''.keywords ↔ k ∈ item'.keywords) := by
  obtain ⟨lib1, hup1, hfind1⟩ := update_item_keywords_spec lib item_id new_keywords item h
  obtain ⟨lib2, hup2, hfind2⟩ := update_item_keywords_spec lib1 item_id new_keywords _ hfind1
  refine ⟨lib1, _, lib2, _, hup1, hfind1, hup2, hfind2, ?_, ?_, ?_, ?_⟩
  · exact nodup_pyListSet _
  · exact nodup_pyListSet _
  · intro k hk
    exact mem_pyListSet.mpr (List.mem_append_left _ hk)
  · intro k
    show k ∈ pyListSet (pyListSet (item.keywords ++ new_keywords) ++ new_keywords)
      ↔ k ∈ pyListSet (item.keywords ++ new_keywords)
    simp only [mem_pyListSet, List.mem_append]
    tauto

/-- Claim C8 witness at a concrete library. -/
theorem C8_keywords_monotone_idempotent_witness :
    findItem ⟨[], [], [⟨1, "p", ["a"], []⟩], 0⟩ 1 = some ⟨1, "p", ["a"], []⟩ ∧
    ∃ lib' item' lib'' item'',
      update_item_keywords ⟨[], [], [⟨1, "p", ["a"], []⟩], 0⟩ 1 ["b", "b"] = .ok lib' ∧
      findItem lib' 1 = some item' ∧
      update_item_keywords lib' 1 ["b", "b"] = .ok lib'' ∧
      findItem lib'' 1 = some item'' ∧
      item'.keywords.Nodup ∧ item''.keywords.Nodup ∧
      (∀ k ∈ (["a"] : List String), k ∈ item'.keywords) ∧
      (∀ k, k ∈ item''.keywords ↔ k ∈ item'.keywords) :=
  ⟨rfl, C8_keywords_monotone_idempotent ⟨[], [], [⟨1, "p", ["a"], []⟩], 0⟩ 1 ["b", "b"]
    ⟨1, "p", ["a"], []⟩ rfl⟩

/-- Claim C10: after a keyword update on a known paper, the paper's keyword
set equals exactly the union of its previous keywords and the new
keywords. -/
theorem C10_keywords_exact_union (lib : Library) (item_id : Nat)
    (new_keywords : List String) (item : Item)
    (h : findItem lib item_id = some item) :
    ∃ lib' item',
      update_item_keywords lib item_id new_keywords = .ok lib' ∧
      findItem lib' item_id = some item' ∧
      ∀ x, x ∈ item'.keywords ↔ (x ∈ item.keywords ∨ x ∈ new_keywords) := by
  obtain ⟨lib1, hup1, hfind1⟩ := update_item_keywords_spec lib item_id new_keywords item h
  refine ⟨lib1, _, hup1, hfind1, ?_⟩
  intro x
  show x ∈ pyListSet (item.keywords ++ new_keywords) ↔ _
  rw [mem_pyListSet, List.mem_append]

/-- Claim C10 witness at a concrete library. -/
theorem C10_keywords_exact_union_witness :
    findItem ⟨[], [], [⟨1, "p", ["a", "b"], []⟩], 0⟩ 1 = some ⟨1, "p", ["a", "b"], []⟩ ∧
    ∃ lib' item',
      update_item_keywords ⟨[], [], [⟨1, "p", ["a", "b"], []⟩], 0⟩ 1 ["b", "c"] = .ok lib' ∧
      findItem lib' 1 = some item' ∧
      ∀ x, x ∈ item'.keywords ↔ (x ∈ (["a", "b"] : List String) ∨ x ∈ (["b", "c"] : List String)) :=
  ⟨rfl, C10_keywords_exact_union ⟨[], [], [⟨1, "p", ["a", "b"], []⟩], 0⟩ 1 ["b", "c"]
    ⟨1, "p", ["a", "b"], []⟩ rfl⟩

/-! ### Claim C7: reference errors -/

theorem filter_ne_then_eq (pid : Nat) :
    ∀ (rows : List (Nat × Nat)),
      (rows.filter (fun r => r.1 != pid)).filter (fun r => r.1 == pid) = [] := by
  intro rows
  induction rows with
  | nil => rfl
  | cons r rest ih =>
      by_cases h : r.1 = pid
      · rw [show (r :: rest).filter (fun r => r.1 != pid)
            = rest.filter (fun r => r.1 != pid) from by simp [List.filter_cons, h]]
        exact ih
      · rw [show (r :: rest).filter (fun r => r.1 != pid)
            = r :: rest.filter (fun r => r.1 != pid) from by simp [List.filter_cons, h]]
        rw [show (r :: (rest.filter (fun r => r.1 != pid))).filter (fun r => r.1 == pid)
            = (rest.filter (fun r => r.1 != pid)).filter (fun r => r.1 == pid) from by
          simp [List.filter_cons, h]]
        exact ih

theorem filter_map_pair (pid : Nat) :
    ∀ (ids : List Nat),
      (((ids.map (fun cid => (pid, cid))).filter (fun r => r.1 == pid)).map Prod.snd)
        = ids := by
  intro ids
  induction ids with
  | nil => rfl
  | cons i rest ih => simp [List.filter_cons, ih]

/-- Claim C7 (amended): a store update with an unknown paper identifier
raises an explicit fault that aborts the operation without retrying; a
membership update by a known paper never faults on unknown collection
identifiers — they are silently skipped, so the paper's resulting
membership rows are exactly the sub-list of the requested identifiers that
exist in the store. -/
theorem C7_reference_errors :
    (∀ (lib : Library) (item_id : Nat) (ids : List Nat),
        findItem lib item_id = none →
        update_item_collections lib item_id ids
          = .error ("Item " ++ toString item_id ++ " not found")) ∧
    (∀ (lib : Library) (item_id : Nat) (kws : List String),
        findItem lib item_id = none →
        update_item_keywords lib item_id kws
          = .error ("Item " ++ toString item_id ++ " not found")) ∧
    (∀ (lib : Library) (item_id : Nat) (ids : List Nat) (item : Item),
        findItem lib item_id = some item →
        ∃ lib', update_item_collections lib item_id ids = .ok lib' ∧
          (lib'.collectionItems.filter (fun r => r.1 == item_id)).map Prod.snd
            = ids.filter (fun cid => collMember lib cid)) := by
  refine ⟨?_, ?_, ?_⟩
  · intro lib i ids h
    simp only [update_item_collections, h]
  · intro lib i kws h
    simp only [update_item_keywords, h]
  · intro lib i ids item h
    simp only [update_item_collections, h]
    refine ⟨_, rfl, ?_⟩
    show (((lib.collectionItems.filter (fun r => r.1 != i))
          ++ ((ids.filter (fun cid => collMember lib cid)).map
                (fun cid => (i, cid)))).filter (fun r => r.1 == i)).map Prod.snd
        = ids.filter (fun cid => collMember lib cid)
    rw [List.filter_append, filter_ne_then_eq, List.nil_append]
    exact filter_map_pair i (ids.filter (fun cid => collMember lib cid))

/-- Claim C7 witness: the three parts at concrete libraries; the third
requests the unknown collection id 99 and ends with empty membership. -/
theorem C7_reference_errors_witness :
    update_item_collections ⟨[], [], [], 0⟩ 5 [1]
      = .error ("Item " ++ toString 5 ++ " not found") ∧
    update_item_keywords ⟨[], [], [], 0⟩ 5 ["k"]
      = .error ("Item " ++ toString 5 ++ " not found") ∧
    ∃ lib', update_item_collections ⟨[], [], [⟨1, "p", [], []⟩], 0⟩ 1 [99] = .ok lib' ∧
      (lib'.collectionItems.filter (fun r => r.1 == 1)).map Prod.snd
        = [99].filter (fun cid => collMember ⟨[], [], [⟨1, "p", [], []⟩], 0⟩ cid) :=
  ⟨C7_reference_errors.1 ⟨[], [], [], 0⟩ 5 [1] rfl,
    C7_reference_errors.2.1 ⟨[], [], [], 0⟩ 5 ["k"] rfl,
    C7_reference_errors.2.2 ⟨[], [], [⟨1, "p", [], []⟩], 0⟩ 1 [99] ⟨1, "p", [], []⟩ rfl⟩

/-- Claim C7 counterexample: a membership update that refers to an unknown
collection identifier (no collection `99` exists) does not raise a fault —
it succeeds, silently dropping the unknown identifier. -/
theorem C7_unknown_collection_counterexample :
    collMember ⟨[], [], [⟨1, "p", [], []⟩], 0⟩ 99 = false ∧
    update_item_collections ⟨[], [], [⟨1, "p", [], []⟩], 0⟩ 1 [99]
      = .ok ⟨[], [], [⟨1, "p", [], []⟩], 0⟩ :=
  ⟨rfl, rfl⟩

/-! ### Claim C6: end-to-end example -/

/-- Claim C6: the structure `{"A": {"B": {}, "C": {}}}` flattens to
`["A", "A/B", "A/C"]` in depth-first order, and synchronizing it into an
empty store yields exactly three collections where `A` has no parent and
`B`, `C` both have parent `A`. -/
theorem C6_end_to_end :
    flattenPaths (TNode.node [("A", .node [("B", .node []), ("C", .node [])])])
      = ["A", "A/B", "A/C"] ∧
    (implement_collection_structure
        (TNode.node [("A", .node [("B", .node []), ("C", .node [])])])
        ⟨[], [], [], 0⟩).2.collections
      = [⟨0, "A", none⟩, ⟨1, "B", some 0⟩, ⟨2, "C", some 0⟩] := by
  constructor <;> rfl

/-! ### Claim C4: the Response Extractor never faults, and fails cleanly
without an opening brace -/

theorem mem_of_mem_pyStrip {x : Char} {cs : List Char} (h : x ∈ pyStrip cs) :
    x ∈ cs := by
  unfold pyStrip at h
  rw [List.mem_reverse] at h
  have h1 := (List.dropWhile_sublist _).mem h
  rw [List.mem_reverse] at h1
  exact (List.dropWhile_sublist _).mem h1

theorem splitFirstSeq_eq {sep : List Char} :
    ∀ {cs pre post : List Char}, splitFirstSeq sep cs = some (pre, post) →
      cs = pre ++ sep ++ post := by
  intro cs
  induction cs with
  | nil => intro pre post h; simp [splitFirstSeq] at h
  | cons c rest ih =>
      intro pre post h
      unfold splitFirstSeq at h
      by_cases hp : sep.isPrefixOf (c :: rest)
      · rw [if_pos hp] at h
        obtain ⟨t, ht⟩ := List.isPrefixOf_iff_prefix.mp hp
        injection h with h'
        injection h' with h1 h2
        subst h1
        rw [← ht, ← h2, ← ht]
        simp [List.drop_left]
      · rw [if_neg hp] at h
        cases hr : splitFirstSeq sep rest with
        | none => rw [hr] at h; exact absurd h (by simp)
        | some pq =>
            rw [hr] at h
            obtain ⟨p, q⟩ := pq
            injection h with h'
            injection h' with h1 h2
            subst h2
            rw [← h1]
            simp [ih hr]

theorem mem_of_mem_fenceStrip {x : Char} {cs : List Char}
    (h : x ∈ fenceStrip cs) : x ∈ cs := by
  unfold fenceStrip at h
  cases hs : splitFirstSeq fenceSep cs with
  | none => rw [hs] at h; exact h
  | some pp =>
      obtain ⟨pre, post⟩ := pp
      rw [hs] at h
      have hpost : ∀ y, y ∈ post → y ∈ cs := by
        intro y hy
        rw [splitFirstSeq_eq hs]
        simp [hy]
      have hpiece : ∀ y,
          y ∈ (match splitFirstSeq fenceSep post with
                | some (p1, _) => p1
                | none => post) → y ∈ post := by
        intro y hy
        cases hs2 : splitFirstSeq fenceSep post with
        | none => rw [hs2] at hy; exact hy
        | some qq =>
            obtain ⟨p1, q1⟩ := qq
            rw [hs2] at hy
            rw [splitFirstSeq_eq hs2]
            simp [hy]
      have h1 := mem_of_mem_pyStrip h
      by_cases hj : List.isPrefixOf ['j', 's', 'o', 'n']
          (match splitFirstSeq fenceSep post with
            | some (p1, _) => p1
            | none => post)
      · rw [if_pos hj] at h1
        exact hpost x (hpiece x (List.drop_subset _ _ h1))
      · rw [if_neg hj] at h1
        exact hpost x (hpiece x h1)

theorem pyFind_of_not_mem {c : Char} {cs : List Char} (h : c ∉ cs) :
    pyFind cs c = -1 := by
  unfold pyFind
  have : cs.findIdx? (fun x => x == c) = none := by
    induction cs with
    | nil => rfl
    | cons a l ih =>
        have ha : (a == c) = false := by
          simp only [List.mem_cons, not_or] at h
          exact beq_eq_false_iff_ne.mpr (fun hh => h.1 hh.symm)
        simp [List.findIdx?_cons, ha, ih (by simp only [List.mem_cons, not_or] at h; exact h.2)]
  rw [this]

/-- Claim C4: the Response Extractor is total — for any reply text it
returns either a successfully parsed structured object or the sentinel
failure result (no fault escapes) — and for any text containing no opening
brace anywhere it returns the failure result. -/
theorem C4_extractor_no_brace (raw : List Char) (h : lbrace ∉ raw) :
    propose_extract raw = jsonErrorSentinel ∧
    (∀ raw' : List Char, propose_extract raw' = jsonErrorSentinel ∨
      ∃ span, extract_json_span (fenceStrip (pyStrip raw')) = some span ∧
        pyJsonLoads span = some (propose_extract raw')) := by
  constructor
  · have h2 : lbrace ∉ fenceStrip (pyStrip raw) :=
      fun hx => h (mem_of_mem_pyStrip (mem_of_mem_fenceStrip hx))
    have hspan : extract_json_span (fenceStrip (pyStrip raw)) = none := by
      unfold extract_json_span
      rw [pyFind_of_not_mem h2]
      norm_num
    simp only [propose_extract]
    rw [hspan]
  · intro raw'
    simp only [propose_extract]
    cases hs : extract_json_span (fenceStrip (pyStrip raw')) with
    | none => left; rfl
    | some span =>
        cases hp : pyJsonLoads span with
        | none => left; simp [hp]
        | some v => right; exact ⟨span, rfl, by simp [hp]⟩

/-- Claim C4 witness: a concrete brace-free reply yields the sentinel. -/
theorem C4_extractor_no_brace_witness :
    lbrace ∉ ("no object in this reply".data) ∧
    propose_extract ("no object in this reply".data) = jsonErrorSentinel :=
  ⟨by decide, (C4_extractor_no_brace ("no object in this reply".data) (by decide)).1⟩

/-! ### Flattener path machinery (claims C5, C2, C6) -/

mutual

theorem fcNode_paths (t : TNode) (pre : String) (cols : List Collection)
    (st : List String × List (String × Nat)) :
    (fcNode t pre cols st).1 = st.1 ++ (flatEntriesN t pre).map Prod.fst := by
  match t with
  | .node cs =>
      show (fcList cs pre cols st).1 = _
      rw [fcList_paths cs pre cols st]
      rfl

theorem fcList_paths (cs : List (String × TNode)) (pre : String)
    (cols : List Collection) (st : List String × List (String × Nat)) :
    (fcList cs pre cols st).1 = st.1 ++ (flatEntriesL cs pre).map Prod.fst := by
  match cs with
  | [] => simp [fcList, flatEntriesL]
  | (name, t) :: rest =>
      show (fcList rest pre cols
          (fcNode t (joinPath pre name) cols
            (st.1 ++ [joinPath pre name], resolveName cols name (joinPath pre name) st.2))).1
        = _
      rw [fcList_paths rest pre cols _,
        fcNode_paths t (joinPath pre name) cols _]
      simp [flatEntriesL]

end

/-- A name usable as a path component: nonempty and free of the path
separator. -/
def goodName (s : String) : Prop := s ≠ "" ∧ '/' ∉ s.data

/-- All components of a path are usable names. -/
def goodComps (l : List String) : Prop := ∀ s ∈ l, goodName s

theorem wfL_cons {name : String} {t : TNode} {rest : List (String × TNode)}
    (h : wfL ((name, t) :: rest) = true) :
    goodName name ∧ (∀ p ∈ rest, p.1 ≠ name) ∧ wfT t = true ∧ wfL rest = true := by
  have h' := h
  unfold wfL at h'
  simp only [Bool.and_eq_true, Bool.not_eq_true', decide_eq_false_iff_not,
    decide_eq_true_eq, List.any_eq_false, beq_iff_eq] at h'
  exact ⟨⟨h'.1.1.1.1, h'.1.1.1.2⟩, fun p hp => h'.1.1.2 p hp, h'.1.2, h'.2⟩

mutual

theorem compPathsN_shift (t : TNode) (pre₁ pre₂ : List String) :
    compPathsN t (pre₁ ++ pre₂) = (compPathsN t pre₂).map (pre₁ ++ ·) := by
  match t with
  | .node cs =>
      show compPathsL cs (pre₁ ++ pre₂) = _
      rw [compPathsL_shift cs pre₁ pre₂]
      rfl

theorem compPathsL_shift (cs : List (String × TNode)) (pre₁ pre₂ : List String) :
    compPathsL cs (pre₁ ++ pre₂) = (compPathsL cs pre₂).map (pre₁ ++ ·) := by
  match cs with
  | [] => rfl
  | (name, t) :: rest =>
      show (pre₁ ++ pre₂ ++ [name])
            :: (compPathsN t (pre₁ ++ pre₂ ++ [name]) ++ compPathsL rest (pre₁ ++ pre₂))
          = _
      rw [List.append_assoc pre₁ pre₂ [name], compPathsN_shift t pre₁ (pre₂ ++ [name]),
        compPathsL_shift rest pre₁ pre₂]
      simp [compPathsL]

end

mutual

theorem compPathsN_length (t : TNode) (pre : List String) :
    (compPathsN t pre).length = sizeT t := by
  match t with
  | .node cs =>
      show (compPathsL cs pre).length = sizeL cs
      exact compPathsL_length cs pre

theorem compPathsL_length (cs : List (String × TNode)) (pre : List String) :
    (compPathsL cs pre).length = sizeL cs := by
  match cs with
  | [] => rfl
  | (name, t) :: rest =>
      show ((pre ++ [name]) :: (compPathsN t (pre ++ [name]) ++ compPathsL rest pre)).length
        = 1 + sizeT t + sizeL rest
      rw [List.length_cons, List.length_append, compPathsN_length t _,
        compPathsL_length rest pre]
      omega

end

/-- Every path in `compPathsL cs []` starts with the name of one of the
direct entries of `cs`. -/
theorem compPathsL_head (cs : List (String × TNode)) :
    ∀ q ∈ compPathsL cs [], ∃ p ∈ cs, ∃ r, q = p.1 :: r := by
  induction cs with
  | nil => intro q hq; simp [compPathsL] at hq
  | cons a rest ih =>
      obtain ⟨name, t⟩ := a
      intro q hq
      rw [show compPathsL ((name, t) :: rest) []
          = ([name]) :: (compPathsN t [name] ++ compPathsL rest []) from rfl] at hq
      rcases List.mem_cons.mp hq with rfl | hq
      · exact ⟨(name, t), List.mem_cons_self _ _, [], rfl⟩
      · rcases List.mem_append.mp hq with hq | hq
        · rw [show ([name] : List String) = [name] ++ [] from by simp,
            compPathsN_shift t [name] []] at hq
          obtain ⟨q₀, hq₀, rfl⟩ := List.mem_map.mp hq
          exact ⟨(name, t), List.mem_cons_self _ _, q₀, rfl⟩
        · obtain ⟨p, hp, r, hr⟩ := ih q hq
          exact ⟨p, List.mem_cons_of_mem _ hp, r, hr⟩

/-- Every path in the component paths of a subtree (base prefix) is a
nonempty component list. -/
theorem compPathsN_ne (t : TNode) : ∀ q ∈ compPathsN t [], q ≠ [] := by
  match t with
  | .node d =>
      intro q hq
      obtain ⟨p, _, r, rfl⟩ := compPathsL_head d q hq
      simp

mutual

/-- Under well-formedness, the component paths of a subtree are pairwise
distinct. -/
theorem compPathsN_nodup (t : TNode) (hwf : wfT t = true) :
    (compPathsN t []).Nodup := by
  match t with
  | .node cs =>
      show (compPathsL cs []).Nodup
      exact compPathsL_nodup cs hwf

/-- Under well-formedness, the component paths of an entry list are
pairwise distinct. -/
theorem compPathsL_nodup (cs : List (String × TNode)) (hwf : wfL cs = true) :
    (compPathsL cs []).Nodup := by
  match cs with
  | [] => simp [compPathsL]
  | (name, t) :: rest =>
      obtain ⟨hgood, huniq, hwt, hwrest⟩ := wfL_cons hwf
      rw [show compPathsL ((name, t) :: rest) []
          = ([name]) :: (compPathsN t [name] ++ compPathsL rest []) from rfl]
      have hShift : compPathsN t [name] = (compPathsN t []).map ([name] ++ ·) := by
        rw [show ([name] : List String) = [name] ++ [] from by simp,
          compPathsN_shift t [name] []]
        simp
      have hsubN : ∀ q ∈ compPathsN t [name], ∃ r, q = name :: r := by
        intro q hq
        rw [hShift] at hq
        obtain ⟨q₀, _, rfl⟩ := List.mem_map.mp hq
        exact ⟨q₀, rfl⟩
      have hsubNne : ∀ q ∈ compPathsN t [name], q ≠ [name] := by
        intro q hq
        rw [hShift] at hq
        obtain ⟨q₀, hq₀, rfl⟩ := List.mem_map.mp hq
        have := compPathsN_ne t q₀ hq₀
        simpa using this
      have hrestHead : ∀ q ∈ compPathsL rest [], ∃ p ∈ rest, ∃ r, q = p.1 :: r :=
        compPathsL_head rest
      refine List.Nodup.cons ?_ (List.Nodup.append ?_ (compPathsL_nodup rest hwrest) ?_)
      · intro hmem
        rcases List.mem_append.mp hmem with hq | hq
        · exact hsubNne _ hq rfl
        · obtain ⟨p, hp, r, hr⟩ := hrestHead _ hq
          have h' := hr
          rw [List.cons.injEq] at h'
          exact huniq p hp h'.1.symm
      · rw [hShift]
        refine List.Nodup.map ?_ (compPathsN_nodup t hwt)
        intro x y hxy
        exact List.append_cancel_left hxy
      · intro q hqN hqR
        obtain ⟨r, rfl⟩ := hsubN q hqN
        obtain ⟨p, hp, r', hr'⟩ := hrestHead _ hqR
        have h' := hr'
        rw [List.cons.injEq] at h'
        exact huniq p hp h'.1.symm

end

mutual

/-- All components appearing in a well-formed subtree's paths are usable
names (provided the prefix's are). -/
theorem compPathsN_good (t : TNode) (hwf : wfT t = true)
    (pre : List String) (hpre : goodComps pre) :
    ∀ q ∈ compPathsN t pre, goodComps q := by
  match t with
  | .node cs =>
      show ∀ q ∈ compPathsL cs pre, goodComps q
      exact compPathsL_good cs hwf pre hpre

/-- All components appearing in a well-formed entry list's paths are usable
names (provided the prefix's are). -/
theorem compPathsL_good (cs : List (String × TNode)) (hwf : wfL cs = true)
    (pre : List String) (hpre : goodComps pre) :
    ∀ q ∈ compPathsL cs pre, goodComps q := by
  match cs with
  | [] => intro q hq; simp [compPathsL] at hq
  | (name, t) :: rest =>
      obtain ⟨hgood, _, hwt, hwrest⟩ := wfL_cons hwf
      intro q hq
      rw [show compPathsL ((name, t) :: rest) pre
          = (pre ++ [name]) :: (compPathsN t (pre ++ [name]) ++ compPathsL rest pre)
          from rfl] at hq
      have hpre' : goodComps (pre ++ [name]) := by
        intro s hs
        rcases List.mem_append.mp hs with hs | hs
        · exact hpre s hs
        · rw [List.mem_singleton.mp hs]; exact hgood
      rcases List.mem_cons.mp hq with rfl | hq
      · exact hpre'
      · rcases List.mem_append.mp hq with hq | hq
        · exact compPathsN_good t hwt (pre ++ [name]) hpre' q hq
        · exact compPathsL_good rest hwrest pre hpre q hq

end

/-! ### Rendering component paths to `/`-joined strings -/

theorem string_eq_iff_data {a b : String} : a = b ↔ a.data = b.data :=
  ⟨fun h => h ▸ rfl, String.ext⟩

theorem renderPath_cons_ne (p : String) (l : List String) (h : l ≠ []) :
    renderPath (p :: l) = p ++ "/" ++ renderPath l := by
  match l with
  | [] => exact absurd rfl h
  | m :: rest => rfl

theorem data_append_slash (a X : String) :
    (a ++ "/" ++ X).data = a.data ++ '/' :: X.data := by
  rw [String.data_append, String.data_append]
  simp

theorem renderPath_ne_empty (p : String) (ps : List String)
    (hgood : goodComps (p :: ps)) : renderPath (p :: ps) ≠ "" := by
  match ps with
  | [] => exact (hgood p (by simp)).1
  | m :: rest =>
      rw [renderPath_cons_ne p (m :: rest) (by simp)]
      intro h
      rw [string_eq_iff_data, data_append_slash] at h
      simp at h

theorem renderPath_append_singleton (name : String) :
    ∀ (pre : List String), goodComps pre →
      joinPath (renderPath pre) name = renderPath (pre ++ [name]) := by
  intro pre
  induction pre with
  | nil => intro _; simp [joinPath, renderPath]
  | cons p ps ih =>
      intro hgood
      have hne := renderPath_ne_empty p ps hgood
      rw [joinPath, if_neg hne]
      match ps with
      | [] => rfl
      | m :: rest =>
          have hgood' : goodComps (m :: rest) := fun s hs => hgood s (by simp [hs])
          rw [renderPath_cons_ne p (m :: rest) (by simp),
            List.cons_append,
            renderPath_cons_ne p ((m :: rest) ++ [name]) (by simp),
            ← ih hgood',
            joinPath, if_neg (renderPath_ne_empty m rest hgood')]
          rw [string_eq_iff_data]
          simp [String.data_append]

theorem sep_split : ∀ (a b X Y : List Char), '/' ∉ a → '/' ∉ b →
    a ++ '/' :: X = b ++ '/' :: Y → a = b ∧ X = Y := by
  intro a
  induction a with
  | nil =>
      intro b X Y _ hb h
      match b with
      | [] => simpa using h
      | c :: b' =>
          rw [List.nil_append, List.cons_append, List.cons.injEq] at h
          refine absurd ?_ hb
          rw [← h.1]
          exact List.mem_cons_self _ _
  | cons c a' ih =>
      intro b X Y ha hb h
      match b with
      | [] =>
          rw [List.cons_append, List.nil_append, List.cons.injEq] at h
          refine absurd ?_ ha
          rw [h.1]
          exact List.mem_cons_self _ _
      | d :: b' =>
          rw [List.cons_append, List.cons_append, List.cons.injEq] at h
          obtain ⟨rfl, h2⟩ := h
          have ha' : '/' ∉ a' := fun hx => ha (List.mem_cons_of_mem _ hx)
          have hb' : '/' ∉ b' := fun hx => hb (List.mem_cons_of_mem _ hx)
          obtain ⟨rfl, rfl⟩ := ih b' X Y ha' hb' h2
          exact ⟨rfl, rfl⟩

theorem renderPath_inj : ∀ (p q : List String), goodComps p → goodComps q →
    renderPath p = renderPath q → p = q := by
  intro p
  induction p with
  | nil =>
      intro q _ hq h
      match q with
      | [] => rfl
      | b :: bs =>
          exact absurd h.symm (renderPath_ne_empty b bs hq)
  | cons a as ih =>
      intro q hp hq h
      match q with
      | [] => exact absurd h (renderPath_ne_empty a as hp)
      | b :: bs =>
          match as, bs with
          | [], [] =>
              have h' : a = b := h
              rw [h']
          | [], m :: bs' =>
              rw [show renderPath [a] = a from rfl,
                renderPath_cons_ne b (m :: bs') (by simp)] at h
              have hmem : '/' ∈ a.data := by
                rw [string_eq_iff_data, data_append_slash] at h
                rw [h]
                simp
              exact absurd hmem (hp a (by simp)).2
          | n :: as', [] =>
              rw [show renderPath [b] = b from rfl,
                renderPath_cons_ne a (n :: as') (by simp)] at h
              have hmem : '/' ∈ b.data := by
                rw [string_eq_iff_data, data_append_slash] at h
                rw [← h]
                simp
              exact absurd hmem (hq b (by simp)).2
          | n :: as', m :: bs' =>
              rw [renderPath_cons_ne a (n :: as') (by simp),
                renderPath_cons_ne b (m :: bs') (by simp),
                string_eq_iff_data, data_append_slash, data_append_slash] at h
              obtain ⟨h1, h2⟩ := sep_split _ _ _ _ (hp a (by simp)).2 (hq b (by simp)).2 h
              have hab : a = b := String.ext h1
              have htl : (n :: as') = (m :: bs') := by
                refine ih (m :: bs') (fun s hs => hp s (by simp [hs]))
                  (fun s hs => hq s (by simp [hs])) ?_
                exact String.ext h2
              rw [hab, htl]

/-! ### Flattened paths are rendered component paths -/

mutual

theorem flatEntriesN_render (t : TNode) (hwf : wfT t = true)
    (pre : List String) (hpre : goodComps pre) :
    (flatEntriesN t (renderPath pre)).map Prod.fst
      = (compPathsN t pre).map renderPath := by
  match t with
  | .node cs =>
      show (flatEntriesL cs (renderPath pre)).map Prod.fst
        = (compPathsL cs pre).map renderPath
      exact flatEntriesL_render cs hwf pre hpre

theorem flatEntriesL_render (cs : List (String × TNode)) (hwf : wfL cs = true)
    (pre : List String) (hpre : goodComps pre) :
    (flatEntriesL cs (renderPath pre)).map Prod.fst
      = (compPathsL cs pre).map renderPath := by
  match cs with
  | [] => rfl
  | (name, t) :: rest =>
      obtain ⟨hgood, _, hwt, hwrest⟩ := wfL_cons hwf
      have hpre' : goodComps (pre ++ [name]) := by
        intro s hs
        rcases List.mem_append.mp hs with hs | hs
        · exact hpre s hs
        · rw [List.mem_singleton.mp hs]; exact hgood
      have hjoin := renderPath_append_singleton name pre hpre
      show (joinPath (renderPath pre) name)
            :: ((flatEntriesN t (joinPath (renderPath pre) name)
                  ++ flatEntriesL rest (renderPath pre)).map Prod.fst)
          = renderPath (pre ++ [name])
            :: ((compPathsN t (pre ++ [name]) ++ compPathsL rest pre).map renderPath)
      rw [hjoin, List.map_append, List.map_append,
        flatEntriesN_render t hwt (pre ++ [name]) hpre',
        flatEntriesL_render rest hwrest pre hpre]

end

/-- The flattener's path list is the rendered component-path list. -/
theorem flattenPaths_eq_render (t : TNode) (hwf : wfT t = true) :
    flattenPaths t = (compPathsN t []).map renderPath := by
  show (fcNode t "" [] ([], [])).1 = _
  rw [fcNode_paths]
  have h := flatEntriesN_render t hwf [] (by intro s hs; simp at hs)
  rw [show renderPath [] = "" from rfl] at h
  simpa using h

/-! ### Claim C5: flatten path counts and distinctness -/

/-- Claim C5 counterexample: the empty-string name is allowed by the
documented data-model invariant (which only forbids the separator), yet the
structure with entries named `""`, `""/B` and `B` — 3 named entries —
flattens to only 2 distinct path strings, `["", "B", "B"]`. -/
theorem C5_counterexample :
    flattenPaths (TNode.node [("", .node [("B", .node [])]), ("B", .node [])])
      = ["", "B", "B"] ∧
    sizeT (TNode.node [("", .node [("B", .node [])]), ("B", .node [])]) = 3 ∧
    ¬ (["", "B", "B"] : List String).Nodup :=
  ⟨rfl, rfl, by decide⟩

/-- Claim C5 (amended): for every TaxonomyNode whose names are nonempty,
separator-free and unique among siblings, flatten produces exactly one path
per named entry across all depths, and the paths are pairwise distinct. -/
theorem C5_flatten_distinct_paths (t : TNode) (hwf : wfT t = true) :
    (flattenPaths t).length = sizeT t ∧ (flattenPaths t).Nodup := by
  rw [flattenPaths_eq_render t hwf]
  constructor
  · rw [List.length_map, compPathsN_length]
  · refine List.Nodup.map_on ?_ (compPathsN_nodup t hwf)
    intro x hx y hy hxy
    exact renderPath_inj x y (compPathsN_good t hwf [] (by intro s hs; simp at hs) x hx)
      (compPathsN_good t hwf [] (by intro s hs; simp at hs) y hy) hxy

/-- Claim C5 witness at a concrete well-formed taxonomy. -/
theorem C5_flatten_distinct_paths_witness :
    wfT (TNode.node [("A", .node [("B", .node []), ("C", .node [])])]) = true ∧
    (flattenPaths (TNode.node [("A", .node [("B", .node []), ("C", .node [])])])).length
        = sizeT (TNode.node [("A", .node [("B", .node []), ("C", .node [])])]) ∧
    (flattenPaths (TNode.node [("A", .node [("B", .node []), ("C", .node [])])])).Nodup :=
  ⟨by decide,
    (C5_flatten_distinct_paths (TNode.node [("A", .node [("B", .node []), ("C", .node [])])])
      (by decide)).1,
    (C5_flatten_distinct_paths (TNode.node [("A", .node [("B", .node []), ("C", .node [])])])
      (by decide)).2⟩

/-! ### Claim C2: path resolution records the last matching collection -/

theorem dictLookup_insert_self (k : String) (v : Nat) :
    ∀ (m : List (String × Nat)), dictLookup k (dictInsert k v m) = some v := by
  intro m
  induction m with
  | nil => simp [dictInsert, dictLookup]
  | cons p rest ih =>
      obtain ⟨k', v'⟩ := p
      by_cases h : k' = k
      · simp [dictInsert, dictLookup, h]
      · simp [dictInsert, dictLookup, h, ih]

theorem dictLookup_insert_other (k k' : String) (v : Nat) (hne : k' ≠ k) :
    ∀ (m : List (String × Nat)), dictLookup k' (dictInsert k v m) = dictLookup k' m := by
  intro m
  induction m with
  | nil => simp [dictInsert, dictLookup, Ne.symm hne]
  | cons p rest ih =>
      obtain ⟨k₀, v₀⟩ := p
      by_cases h : k₀ = k
      · subst h
        simp only [dictInsert, if_pos rfl, dictLookup]
        rw [if_neg (fun h => hne h.symm), if_neg (fun h => hne h.symm)]
      · simp only [dictInsert, if_neg h, dictLookup]
        by_cases h' : k₀ = k'
        · rw [if_pos h', if_pos h']
        · rw [if_neg h', if_neg h', ih]

theorem resolveName_lookup_self (name full : String) :
    ∀ (cols : List Collection) (m : List (String × Nat)),
      dictLookup full (resolveName cols name full m)
        = match lastMatchId cols name with
          | some v => some v
          | none => dictLookup full m := by
  intro cols
  induction cols with
  | nil => intro m; rfl
  | cons c rest ih =>
      intro m
      show dictLookup full (resolveName rest name full _) = _
      rw [ih]
      by_cases hc : c.name = name
      · rw [if_pos hc, dictLookup_insert_self]
        show _ = (match lastMatchId (c :: rest) name with
          | some v => some v
          | none => dictLookup full m)
        rw [show lastMatchId (c :: rest) name
            = (match lastMatchId rest name with
                | some v => some v
                | none => if c.name = name then some c.collection_id else none) from rfl]
        cases lastMatchId rest name with
        | none => rw [if_pos hc]
        | some v => rfl
      · rw [if_neg hc]
        show _ = (match lastMatchId (c :: rest) name with
          | some v => some v
          | none => dictLookup full m)
        rw [show lastMatchId (c :: rest) name
            = (match lastMatchId rest name with
                | some v => some v
                | none => if c.name = name then some c.collection_id else none) from rfl]
        cases lastMatchId rest name with
        | none => rw [if_neg hc]
        | some v => rfl

theorem resolveName_lookup_other (name full k : String) (hne : k ≠ full) :
    ∀ (cols : List Collection) (m : List (String × Nat)),
      dictLookup k (resolveName cols name full m) = dictLookup k m := by
  intro cols
  induction cols with
  | nil => intro m; rfl
  | cons c rest ih =>
      intro m
      show dictLookup k (resolveName rest name full _) = _
      rw [ih]
      by_cases hc : c.name = name
      · rw [if_pos hc, dictLookup_insert_other full k _ hne]
      · rw [if_neg hc]

mutual

theorem fcNode_map_untouched (t : TNode) (pre : String) (cols : List Collection)
    (st : List String × List (String × Nat)) (k : String)
    (hk : k ∉ (flatEntriesN t pre).map Prod.fst) :
    dictLookup k (fcNode t pre cols st).2 = dictLookup k st.2 := by
  match t with
  | .node cs => exact fcList_map_untouched cs pre cols st k hk

theorem fcList_map_untouched (cs : List (String × TNode)) (pre : String)
    (cols : List Collection) (st : List String × List (String × Nat)) (k : String)
    (hk : k ∉ (flatEntriesL cs pre).map Prod.fst) :
    dictLookup k (fcList cs pre cols st).2 = dictLookup k st.2 := by
  match cs with
  | [] => rfl
  | (name, t) :: rest =>
      rw [show (flatEntriesL ((name, t) :: rest) pre).map Prod.fst
          = joinPath pre name
              :: ((flatEntriesN t (joinPath pre name)).map Prod.fst
                  ++ (flatEntriesL rest pre).map Prod.fst) from by
        simp [flatEntriesL]] at hk
      simp only [List.mem_cons, List.mem_append, not_or] at hk
      obtain ⟨hk1, hk2, hk3⟩ := hk
      show dictLookup k (fcList rest pre cols
          (fcNode t (joinPath pre name) cols
            (st.1 ++ [joinPath pre name],
              resolveName cols name (joinPath pre name) st.2))).2 = _
      rw [fcList_map_untouched rest pre cols _ k hk3,
        fcNode_map_untouched t (joinPath pre name) cols _ k hk2]
      exact resolveName_lookup_other name (joinPath pre name) k hk1 cols st.2

end

/-- The effect of one resolution pass for final name component `name` on
the map value stored under a path key: overwrite with the last match when
one exists, keep the old value otherwise. -/
def lastApply (cols : List Collection) (name : String) (x : Option Nat) : Option Nat :=
  match lastMatchId cols name with
  | some v => some v
  | none => x

theorem lastApply_idem (cols : List Collection) (name : String) (x : Option Nat) :
    lastApply cols name (lastApply cols name x) = lastApply cols name x := by
  unfold lastApply
  cases lastMatchId cols name with
  | none => rfl
  | some v => rfl

theorem resolveName_lookup_self' (name full : String) (cols : List Collection)
    (m : List (String × Nat)) :
    dictLookup full (resolveName cols name full m)
      = lastApply cols name (dictLookup full m) :=
  resolveName_lookup_self name full cols m

mutual

theorem fcNode_map_visited (t : TNode) (pre : String) (cols : List Collection)
    (st : List String × List (String × Nat)) (full name : String)
    (hmem : full ∈ (flatEntriesN t pre).map Prod.fst)
    (hfun : ∀ p ∈ flatEntriesN t pre, p.1 = full → p.2 = name) :
    dictLookup full (fcNode t pre cols st).2
      = lastApply cols name (dictLookup full st.2) := by
  match t with
  | .node cs => exact fcList_map_visited cs pre cols st full name hmem hfun

theorem fcList_map_visited (cs : List (String × TNode)) (pre : String)
    (cols : List Collection) (st : List String × List (String × Nat))
    (full name : String)
    (hmem : full ∈ (flatEntriesL cs pre).map Prod.fst)
    (hfun : ∀ p ∈ flatEntriesL cs pre, p.1 = full → p.2 = name) :
    dictLookup full (fcList cs pre cols st).2
      = lastApply cols name (dictLookup full st.2) := by
  match cs with
  | [] => simp [flatEntriesL] at hmem
  | (nm, t) :: rest =>
      rw [show flatEntriesL ((nm, t) :: rest) pre
          = (joinPath pre nm, nm)
              :: (flatEntriesN t (joinPath pre nm) ++ flatEntriesL rest pre)
          from rfl] at hmem hfun
      simp only [List.map_cons, List.map_append, List.mem_cons,
        List.mem_append] at hmem
      have hres : fcList ((nm, t) :: rest) pre cols st
          = fcList rest pre cols
              (fcNode t (joinPath pre nm) cols
                (st.1 ++ [joinPath pre nm],
                  resolveName cols nm (joinPath pre nm) st.2)) := rfl
      rw [hres]
      have hfunSub : ∀ p ∈ flatEntriesN t (joinPath pre nm), p.1 = full → p.2 = name :=
        fun p hp => hfun p (List.mem_cons_of_mem _ (List.mem_append_left _ hp))
      have hfunRest : ∀ p ∈ flatEntriesL rest pre, p.1 = full → p.2 = name :=
        fun p hp => hfun p (List.mem_cons_of_mem _ (List.mem_append_right _ hp))
      by_cases hf1 : full = joinPath pre nm
      · -- the head's resolution pass writes this key (with this name);
        -- later passes either skip the key or re-apply the same pass
        have hnm : nm = name :=
          hfun (joinPath pre nm, nm) (List.mem_cons_self _ _) hf1.symm
        have h1 : dictLookup full (resolveName cols nm (joinPath pre nm) st.2)
            = lastApply cols name (dictLookup full st.2) := by
          rw [hf1, ← hnm]
          exact resolveName_lookup_self' nm (joinPath pre nm) cols st.2
        have h2 : dictLookup full
              (fcNode t (joinPath pre nm) cols
                (st.1 ++ [joinPath pre nm],
                  resolveName cols nm (joinPath pre nm) st.2)).2
            = lastApply cols name (dictLookup full st.2) := by
          by_cases hsubm : full ∈ (flatEntriesN t (joinPath pre nm)).map Prod.fst
          · have hv : dictLookup full
                  (fcNode t (joinPath pre nm) cols
                    (st.1 ++ [joinPath pre nm],
                      resolveName cols nm (joinPath pre nm) st.2)).2
                = lastApply cols name
                    (dictLookup full (resolveName cols nm (joinPath pre nm) st.2)) :=
              fcNode_map_visited t (joinPath pre nm) cols
                (st.1 ++ [joinPath pre nm],
                  resolveName cols nm (joinPath pre nm) st.2) full name hsubm hfunSub
            rw [hv, h1, lastApply_idem]
          · have hu : dictLookup full
                  (fcNode t (joinPath pre nm) cols
                    (st.1 ++ [joinPath pre nm],
                      resolveName cols nm (joinPath pre nm) st.2)).2
                = dictLookup full (resolveName cols nm (joinPath pre nm) st.2) :=
              fcNode_map_untouched t (joinPath pre nm) cols
                (st.1 ++ [joinPath pre nm],
                  resolveName cols nm (joinPath pre nm) st.2) full hsubm
            rw [hu, h1]
        by_cases hrestm : full ∈ (flatEntriesL rest pre).map Prod.fst
        · have hv := fcList_map_visited rest pre cols
            (fcNode t (joinPath pre nm) cols
              (st.1 ++ [joinPath pre nm],
                resolveName cols nm (joinPath pre nm) st.2)) full name hrestm hfunRest
          rw [hv, h2, lastApply_idem]
        · have hu := fcList_map_untouched rest pre cols
            (fcNode t (joinPath pre nm) cols
              (st.1 ++ [joinPath pre nm],
                resolveName cols nm (joinPath pre nm) st.2)) full hrestm
          rw [hu, h2]
      · -- the head's pass leaves this key alone
        have h1 : dictLookup full (resolveName cols nm (joinPath pre nm) st.2)
            = dictLookup full st.2 :=
          resolveName_lookup_other nm (joinPath pre nm) full hf1 cols st.2
        have hmem2 : full ∈ (flatEntriesN t (joinPath pre nm)).map Prod.fst
            ∨ full ∈ (flatEntriesL rest pre).map Prod.fst := by
          rcases hmem with h | h | h
          · exact absurd h hf1
          · exact Or.inl h
          · exact Or.inr h
        by_cases hsubm : full ∈ (flatEntriesN t (joinPath pre nm)).map Prod.fst
        · have h2 : dictLookup full
                (fcNode t (joinPath pre nm) cols
                  (st.1 ++ [joinPath pre nm],
                    resolveName cols nm (joinPath pre nm) st.2)).2
              = lastApply cols name (dictLookup full st.2) := by
            have hv : dictLookup full
                  (fcNode t (joinPath pre nm) cols
                    (st.1 ++ [joinPath pre nm],
                      resolveName cols nm (joinPath pre nm) st.2)).2
                = lastApply cols name
                    (dictLookup full (resolveName cols nm (joinPath pre nm) st.2)) :=
              fcNode_map_visited t (joinPath pre nm) cols
                (st.1 ++ [joinPath pre nm],
                  resolveName cols nm (joinPath pre nm) st.2) full name hsubm hfunSub
            rw [hv, h1]
          by_cases hrestm : full ∈ (flatEntriesL rest pre).map Prod.fst
          · have hv := fcList_map_visited rest pre cols
              (fcNode t (joinPath pre nm) cols
                (st.1 ++ [joinPath pre nm],
                  resolveName cols nm (joinPath pre nm) st.2)) full name hrestm hfunRest
            rw [hv, h2, lastApply_idem]
          · have hu := fcList_map_untouched rest pre cols
              (fcNode t (joinPath pre nm) cols
                (st.1 ++ [joinPath pre nm],
                  resolveName cols nm (joinPath pre nm) st.2)) full hrestm
            rw [hu, h2]
        · have hrestm : full ∈ (flatEntriesL rest pre).map Prod.fst := by
            rcases hmem2 with h | h
            · exact absurd h hsubm
            · exact h
          have h2 : dictLookup full
                (fcNode t (joinPath pre nm) cols
                  (st.1 ++ [joinPath pre nm],
                    resolveName cols nm (joinPath pre nm) st.2)).2
              = dictLookup full st.2 := by
            have hu : dictLookup full
                  (fcNode t (joinPath pre nm) cols
                    (st.1 ++ [joinPath pre nm],
                      resolveName cols nm (joinPath pre nm) st.2)).2
                = dictLookup full (resolveName cols nm (joinPath pre nm) st.2) :=
              fcNode_map_untouched t (joinPath pre nm) cols
                (st.1 ++ [joinPath pre nm],
                  resolveName cols nm (joinPath pre nm) st.2) full hsubm
            rw [hu, h1]
          have hv := fcList_map_visited rest pre cols
            (fcNode t (joinPath pre nm) cols
              (st.1 ++ [joinPath pre nm],
                resolveName cols nm (joinPath pre nm) st.2)) full name hrestm hfunRest
          rw [hv, h2]

end

/-- Claim C2 counterexample: with two collections both named `X`, created
in order id 1 then id 2, the flattener resolves path `X` to identifier 2 —
the last match in store iteration order, not the first as the claim
states. -/
theorem C2_counterexample :
    dictLookup "X" (flatten_collections (TNode.node [("X", .node [])])
        [⟨1, "X", none⟩, ⟨2, "X", none⟩]).2 = some 2 ∧ (2 : Nat) ≠ 1 :=
  ⟨rfl, by decide⟩

theorem sepFreeL_cons {name : String} {t : TNode} {rest : List (String × TNode)}
    (h : sepFreeL ((name, t) :: rest) = true) :
    ('/' ∉ name.data) ∧ sepFreeT t = true ∧ sepFreeL rest = true := by
  have h' := h
  unfold sepFreeL at h'
  simp only [Bool.and_eq_true, decide_eq_true_eq] at h'
  exact ⟨h'.1.1, h'.1.2, h'.2⟩

/-- With separator-free final components, a path string determines its
final name component: the separator never occurs inside a name, so the
name is whatever follows the last separator. -/
theorem joinPath_last_inj {p1 p2 n1 n2 : String}
    (h1 : '/' ∉ n1.data) (h2 : '/' ∉ n2.data)
    (h : joinPath p1 n1 = joinPath p2 n2) : n1 = n2 := by
  unfold joinPath at h
  by_cases hp1 : p1 = ""
  · rw [if_pos hp1] at h
    by_cases hp2 : p2 = ""
    · rw [if_pos hp2] at h
      exact h
    · rw [if_neg hp2] at h
      exfalso
      apply h1
      rw [string_eq_iff_data, data_append_slash] at h
      rw [h]
      simp
  · rw [if_neg hp1] at h
    by_cases hp2 : p2 = ""
    · rw [if_pos hp2] at h
      exfalso
      apply h2
      rw [string_eq_iff_data, data_append_slash] at h
      rw [← h]
      simp
    · rw [if_neg hp2] at h
      rw [string_eq_iff_data, data_append_slash, data_append_slash] at h
      have hrev := congrArg List.reverse h
      simp only [List.reverse_append, List.reverse_cons, List.append_assoc,
        List.singleton_append, List.reverse_nil, List.nil_append] at hrev
      obtain ⟨hn, _⟩ := sep_split n1.data.reverse n2.data.reverse
        p1.data.reverse p2.data.reverse
        (fun hx => h1 (List.mem_reverse.mp hx))
        (fun hx => h2 (List.mem_reverse.mp hx)) hrev
      refine String.ext ?_
      have := congrArg List.reverse hn
      simpa using this

mutual

theorem flatEntriesN_shape (t : TNode) (pre : String) (hsf : sepFreeT t = true) :
    ∀ p ∈ flatEntriesN t pre, ('/' ∉ p.2.data) ∧ ∃ pre', p.1 = joinPath pre' p.2 := by
  match t with
  | .node cs => exact flatEntriesL_shape cs pre hsf

theorem flatEntriesL_shape (cs : List (String × TNode)) (pre : String)
    (hsf : sepFreeL cs = true) :
    ∀ p ∈ flatEntriesL cs pre, ('/' ∉ p.2.data) ∧ ∃ pre', p.1 = joinPath pre' p.2 := by
  match cs with
  | [] => intro p hp; simp [flatEntriesL] at hp
  | (nm, t) :: rest =>
      obtain ⟨hnm, hsft, hsfr⟩ := sepFreeL_cons hsf
      intro p hp
      rw [show flatEntriesL ((nm, t) :: rest) pre
          = (joinPath pre nm, nm)
              :: (flatEntriesN t (joinPath pre nm) ++ flatEntriesL rest pre)
          from rfl] at hp
      rcases List.mem_cons.mp hp with rfl | hp
      · exact ⟨hnm, pre, rfl⟩
      · rcases List.mem_append.mp hp with hp | hp
        · exact flatEntriesN_shape t (joinPath pre nm) hsft p hp
        · exact flatEntriesL_shape rest pre hsfr p hp

end

/-- Claim C2 (amended): for every path the flattener produces from a
taxonomy whose names satisfy the documented separator-free invariant,
resolution compares the path's final name component against every
collection in the store (not scoped to ancestors) and records the
identifier of the last matching collection in store iteration order; when
several collections share the name, the recorded identifier is the last
one encountered. -/
theorem C2_path_resolution (t : TNode) (cols : List Collection)
    (hsf : sepFreeT t = true) :
    ∀ full name, (full, name) ∈ flatEntriesN t "" →
      dictLookup full (flatten_collections t cols).2 = lastMatchId cols name := by
  intro full name hmem
  have hmem' : full ∈ (flatEntriesN t "").map Prod.fst :=
    List.mem_map.mpr ⟨(full, name), hmem, rfl⟩
  have hfun : ∀ p ∈ flatEntriesN t "", p.1 = full → p.2 = name := by
    intro p hp hp1
    obtain ⟨hpn, pre', hpre'⟩ := flatEntriesN_shape t "" hsf p hp
    obtain ⟨hnn, preN, hpreN⟩ := flatEntriesN_shape t "" hsf (full, name) hmem
    have hpreN' : full = joinPath preN name := hpreN
    exact joinPath_last_inj hpn hnn (by rw [← hpre', hp1, hpreN'])
  have h := fcNode_map_visited t "" cols ([], []) full name hmem' hfun
  show dictLookup full (fcNode t "" cols ([], [])).2 = _
  rw [h]
  show lastApply cols name none = _
  unfold lastApply
  cases lastMatchId cols name with
  | none => rfl
  | some v => rfl

/-- Claim C2 witness: the amended behaviour at the counterexample input. -/
theorem C2_path_resolution_witness :
    sepFreeT (TNode.node [("X", .node [])]) = true ∧
    ("X", "X") ∈ flatEntriesN (TNode.node [("X", .node [])]) "" ∧
    dictLookup "X" (flatten_collections (TNode.node [("X", .node [])])
        [⟨1, "X", none⟩, ⟨2, "X", none⟩]).2
      = lastMatchId [⟨1, "X", none⟩, ⟨2, "X", none⟩] "X" :=
  ⟨by decide, by decide,
    C2_path_resolution (TNode.node [("X", .node [])])
      [⟨1, "X", none⟩, ⟨2, "X", none⟩] (by decide) "X" "X" (by decide)⟩

/-! ### Python-dict algebra (claims C9, C1) -/

theorem dictInsert_overwrite (k : String) (v w : Nat) :
    ∀ (m : List (String × Nat)), dictInsert k v (dictInsert k w m) = dictInsert k v m := by
  intro m
  induction m with
  | nil => simp [dictInsert]
  | cons p rest ih =>
      obtain ⟨k₀, v₀⟩ := p
      by_cases h : k₀ = k
      · simp [dictInsert, h]
      · simp [dictInsert, h, ih]

theorem dictInsert_mem_keys (k : String) (v : Nat) :
    ∀ (m : List (String × Nat)), k ∈ (dictInsert k v m).map Prod.fst := by
  intro m
  induction m with
  | nil => simp [dictInsert]
  | cons p rest ih =>
      obtain ⟨k₀, v₀⟩ := p
      by_cases h : k₀ = k
      · subst h
        simp [dictInsert]
      · rw [show dictInsert k v ((k₀, v₀) :: rest) = (k₀, v₀) :: dictInsert k v rest from by
          simp [dictInsert, h]]
        simp only [List.map_cons, List.mem_cons]
        exact Or.inr ih

theorem dictInsert_keys_mono (k k' : String) (v : Nat) :
    ∀ (m : List (String × Nat)), k' ∈ m.map Prod.fst →
      k' ∈ (dictInsert k v m).map Prod.fst := by
  intro m
  induction m with
  | nil => intro h; simp at h
  | cons p rest ih =>
      obtain ⟨k₀, v₀⟩ := p
      intro h
      simp only [List.map_cons, List.mem_cons] at h
      by_cases h0 : k₀ = k
      · rw [show dictInsert k v ((k₀, v₀) :: rest) = (k₀, v) :: rest from by
          simp [dictInsert, h0]]
        simp only [List.map_cons, List.mem_cons]
        exact h
      · rw [show dictInsert k v ((k₀, v₀) :: rest) = (k₀, v₀) :: dictInsert k v rest from by
          simp [dictInsert, h0]]
        simp only [List.map_cons, List.mem_cons]
        rcases h with h | h
        · exact Or.inl h
        · exact Or.inr (ih h)

/-- Two dict inserts with distinct keys commute when the first key is
already present (so neither changes the other's position). -/
theorem dictInsert_comm_mem (k k₀ : String) (v v₀ : Nat) (hne : k ≠ k₀) :
    ∀ (m : List (String × Nat)), k ∈ m.map Prod.fst →
      dictInsert k v (dictInsert k₀ v₀ m) = dictInsert k₀ v₀ (dictInsert k v m) := by
  intro m
  induction m with
  | nil => intro h; simp at h
  | cons p rest ih =>
      obtain ⟨k₁, v₁⟩ := p
      intro hmem
      simp only [List.map_cons, List.mem_cons] at hmem
      by_cases h1 : k₁ = k
      · have hk10 : ¬ k₁ = k₀ := fun hh => hne (h1.symm.trans hh)
        rw [show dictInsert k₀ v₀ ((k₁, v₁) :: rest) = (k₁, v₁) :: dictInsert k₀ v₀ rest
            from by simp [dictInsert, hk10]]
        rw [show dictInsert k v ((k₁, v₁) :: dictInsert k₀ v₀ rest)
            = (k₁, v) :: dictInsert k₀ v₀ rest from by simp [dictInsert, h1]]
        rw [show dictInsert k v ((k₁, v₁) :: rest) = (k₁, v) :: rest from by
          simp [dictInsert, h1]]
        rw [show dictInsert k₀ v₀ ((k₁, v) :: rest) = (k₁, v) :: dictInsert k₀ v₀ rest
            from by simp [dictInsert, hk10]]
      · have hk : k ∈ rest.map Prod.fst := by
          rcases hmem with h | h
          · exact absurd h.symm h1
          · exact h
        by_cases h0 : k₁ = k₀
        · rw [show dictInsert k₀ v₀ ((k₁, v₁) :: rest) = (k₁, v₀) :: rest from by
            simp [dictInsert, h0]]
          rw [show dictInsert k v ((k₁, v₀) :: rest) = (k₁, v₀) :: dictInsert k v rest
              from by simp [dictInsert, h1]]
          rw [show dictInsert k v ((k₁, v₁) :: rest) = (k₁, v₁) :: dictInsert k v rest
              from by simp [dictInsert, h1]]
          rw [show dictInsert k₀ v₀ ((k₁, v₁) :: dictInsert k v rest)
              = (k₁, v₀) :: dictInsert k v rest from by simp [dictInsert, h0]]
        · rw [show dictInsert k₀ v₀ ((k₁, v₁) :: rest) = (k₁, v₁) :: dictInsert k₀ v₀ rest
              from by simp [dictInsert, h0]]
          rw [show dictInsert k v ((k₁, v₁) :: dictInsert k₀ v₀ rest)
              = (k₁, v₁) :: dictInsert k v (dictInsert k₀ v₀ rest) from by
            simp [dictInsert, h1]]
          rw [show dictInsert k v ((k₁, v₁) :: rest) = (k₁, v₁) :: dictInsert k v rest
              from by simp [dictInsert, h1]]
          rw [show dictInsert k₀ v₀ ((k₁, v₁) :: dictInsert k v rest)
              = (k₁, v₁) :: dictInsert k₀ v₀ (dictInsert k v rest) from by
            simp [dictInsert, h0]]
          rw [ih hk]

theorem dictUpdate_cons (acc : List (String × Nat)) (p : String × Nat)
    (L : List (String × Nat)) :
    dictUpdate acc (p :: L) = dictUpdate (dictInsert p.1 p.2 acc) L := rfl

theorem dictUpdate_append (acc L₁ L₂ : List (String × Nat)) :
    dictUpdate acc (L₁ ++ L₂) = dictUpdate (dictUpdate acc L₁) L₂ :=
  List.foldl_append ..

theorem dictInsert_keys_subset (k : String) (v : Nat) (m : List (String × Nat)) :
    ∀ k', k' ∈ (dictInsert k v m).map Prod.fst → k' = k ∨ k' ∈ m.map Prod.fst := by
  induction m with
  | nil => intro k' h; simp [dictInsert] at h; exact Or.inl h
  | cons p rest ih =>
      obtain ⟨k₀, v₀⟩ := p
      intro k' h
      by_cases h0 : k₀ = k
      · rw [show dictInsert k v ((k₀, v₀) :: rest) = (k₀, v) :: rest from by
          simp [dictInsert, h0]] at h
        simp only [List.map_cons, List.mem_cons] at h
        rcases h with rfl | h
        · exact Or.inr (by simp)
        · exact Or.inr (by simp [h])
      · rw [show dictInsert k v ((k₀, v₀) :: rest) = (k₀, v₀) :: dictInsert k v rest from by
          simp [dictInsert, h0]] at h
        simp only [List.map_cons, List.mem_cons] at h
        rcases h with rfl | h
        · exact Or.inr (by simp)
        · rcases ih k' h with h | h
          · exact Or.inl h
          · exact Or.inr (by simp [h])

theorem dictInsert_keys_nodup (k : String) (v : Nat) (m : List (String × Nat))
    (hm : (m.map Prod.fst).Nodup) : ((dictInsert k v m).map Prod.fst).Nodup := by
  induction m with
  | nil => simp [dictInsert]
  | cons p rest ih =>
      obtain ⟨k₀, v₀⟩ := p
      simp only [List.map_cons, List.nodup_cons] at hm
      by_cases h0 : k₀ = k
      · rw [show dictInsert k v ((k₀, v₀) :: rest) = (k₀, v) :: rest from by
          simp [dictInsert, h0]]
        simp only [List.map_cons, List.nodup_cons]
        exact hm
      · rw [show dictInsert k v ((k₀, v₀) :: rest) = (k₀, v₀) :: dictInsert k v rest from by
          simp [dictInsert, h0]]
        simp only [List.map_cons, List.nodup_cons]
        refine ⟨?_, ih hm.2⟩
        intro hmem
        rcases dictInsert_keys_subset k v rest k₀ hmem with h | h
        · exact h0 h
        · exact hm.1 h

/-- A dict insert of an already-present key commutes out of a dict update
that never touches the key. -/
theorem dictUpdate_insert_mem (k : String) (v : Nat) :
    ∀ (b : List (String × Nat)), k ∉ b.map Prod.fst →
      ∀ (a : List (String × Nat)), k ∈ a.map Prod.fst →
        dictInsert k v (dictUpdate a b) = dictUpdate (dictInsert k v a) b := by
  intro b
  induction b with
  | nil => intro _ a _; rfl
  | cons p rest ih =>
      obtain ⟨k₀, v₀⟩ := p
      intro hk a ha
      simp only [List.map_cons, List.mem_cons, not_or] at hk
      rw [dictUpdate_cons, dictUpdate_cons]
      rw [ih hk.2 (dictInsert k₀ v₀ a) (dictInsert_keys_mono k₀ k v₀ a ha)]
      rw [dictInsert_comm_mem k k₀ v v₀ hk.1 a ha]

theorem dictUpdate_insert (k : String) (v : Nat) :
    ∀ (b : List (String × Nat)), (b.map Prod.fst).Nodup →
      ∀ (a : List (String × Nat)),
        dictUpdate a (dictInsert k v b) = dictInsert k v (dictUpdate a b) := by
  intro b
  induction b with
  | nil => intro _ a; rfl
  | cons p rest ih =>
      obtain ⟨k₀, v₀⟩ := p
      intro hb a
      simp only [List.map_cons, List.nodup_cons] at hb
      by_cases h0 : k₀ = k
      · rw [show dictInsert k v ((k₀, v₀) :: rest) = (k₀, v) :: rest from by
          simp [dictInsert, h0]]
        rw [dictUpdate_cons, dictUpdate_cons]
        show dictUpdate (dictInsert k₀ v a) rest = _
        have hknotrest : k ∉ rest.map Prod.fst := h0 ▸ hb.1
        rw [dictUpdate_insert_mem k v rest hknotrest (dictInsert k₀ v₀ a)
          (h0 ▸ dictInsert_mem_keys k₀ v₀ a)]
        rw [show dictInsert k v (dictInsert k₀ v₀ a) = dictInsert k₀ v a from by
          rw [← h0]; exact dictInsert_overwrite k₀ v v₀ a]
      · rw [show dictInsert k v ((k₀, v₀) :: rest) = (k₀, v₀) :: dictInsert k v rest from by
          simp [dictInsert, h0]]
        rw [dictUpdate_cons, dictUpdate_cons]
        exact ih hb.2 (dictInsert k₀ v₀ a)

theorem dictUpdate_keys_nodup :
    ∀ (L acc : List (String × Nat)), (acc.map Prod.fst).Nodup →
      ((dictUpdate acc L).map Prod.fst).Nodup := by
  intro L
  induction L with
  | nil => intro acc h; exact h
  | cons p rest ih =>
      intro acc h
      rw [dictUpdate_cons]
      exact ih _ (dictInsert_keys_nodup p.1 p.2 acc h)

theorem dictUpdate_collapse :
    ∀ (L a b : List (String × Nat)), (b.map Prod.fst).Nodup →
      dictUpdate a (dictUpdate b L) = dictUpdate (dictUpdate a b) L := by
  intro L
  induction L with
  | nil => intro a b _; rfl
  | cons p rest ih =>
      intro a b hb
      rw [dictUpdate_cons, dictUpdate_cons]
      rw [ih a (dictInsert p.1 p.2 b) (dictInsert_keys_nodup p.1 p.2 b hb)]
      rw [dictUpdate_insert p.1 p.2 b hb a]

/-- The last value recorded for a key by a sequence of dict inserts. -/
def lastVal (L : List (String × Nat)) (k : String) : Option Nat :=
  match L with
  | [] => none
  | p :: rest =>
      match lastVal rest k with
      | some v => some v
      | none => if p.1 = k then some p.2 else none

theorem dictUpdate_lookup (k : String) :
    ∀ (L acc : List (String × Nat)),
      dictLookup k (dictUpdate acc L)
        = match lastVal L k with
          | some v => some v
          | none => dictLookup k acc := by
  intro L
  induction L with
  | nil => intro acc; rfl
  | cons p rest ih =>
      intro acc
      rw [dictUpdate_cons, ih]
      by_cases hp : p.1 = k
      · subst hp
        rw [dictLookup_insert_self]
        show _ = (match (match lastVal rest p.1 with
            | some v => some v
            | none => if p.1 = p.1 then some p.2 else none) with
          | some v => some v
          | none => dictLookup p.1 acc)
        cases lastVal rest p.1 with
        | none => rw [if_pos rfl]
        | some v => rfl
      · rw [dictLookup_insert_other p.1 k p.2 (fun h => hp h.symm)]
        show _ = (match (match lastVal rest k with
            | some v => some v
            | none => if p.1 = k then some p.2 else none) with
          | some v => some v
          | none => dictLookup k acc)
        cases lastVal rest k with
        | none => rw [if_neg hp]
        | some v => rfl

/-- `lastVal` over the name/id pairs of a collection list is `lastMatchId`. -/
theorem lastVal_pairs (name : String) :
    ∀ (cols : List Collection),
      lastVal (cols.map (fun c => (c.name, c.collection_id))) name
        = lastMatchId cols name := by
  intro cols
  induction cols with
  | nil => rfl
  | cons c rest ih =>
      show (match lastVal (rest.map (fun c => (c.name, c.collection_id))) name with
          | some v => some v
          | none => if c.name = name then some c.collection_id else none) = _
      rw [ih]
      rfl

/-! ### What the Structure Synchronizer writes (claims C9, C1, C3) -/

mutual

theorem create_collection_structure_spec (t : TNode) (p : Option Nat) (lib : Library) :
    (create_collection_structure t p lib).1
        = dictUpdate []
            ((dfsColsNode t p lib.nextId).map (fun c => (c.name, c.collection_id))) ∧
    (create_collection_structure t p lib).2.collections
        = lib.collections ++ dfsColsNode t p lib.nextId ∧
    (create_collection_structure t p lib).2.nextId = lib.nextId + sizeT t ∧
    (create_collection_structure t p lib).2.items = lib.items ∧
    (create_collection_structure t p lib).2.collectionItems = lib.collectionItems := by
  match t with
  | .node cs => exact ccsGo_spec cs p [] lib

theorem ccsGo_spec (cs : List (String × TNode)) (p : Option Nat)
    (acc : List (String × Nat)) (lib : Library) :
    (ccsGo cs p acc lib).1
        = dictUpdate acc
            ((dfsColsList cs p lib.nextId).map (fun c => (c.name, c.collection_id))) ∧
    (ccsGo cs p acc lib).2.collections = lib.collections ++ dfsColsList cs p lib.nextId ∧
    (ccsGo cs p acc lib).2.nextId = lib.nextId + sizeL cs ∧
    (ccsGo cs p acc lib).2.items = lib.items ∧
    (ccsGo cs p acc lib).2.collectionItems = lib.collectionItems := by
  match cs with
  | [] => exact ⟨rfl, by simp [dfsColsList, ccsGo], rfl, rfl, rfl⟩
  | (name, t) :: rest =>
      have hstep : ccsGo ((name, t) :: rest) p acc lib
          = ccsGo rest p
              (dictUpdate (dictInsert name (create_collection lib name p).1 acc)
                (create_collection_structure t (some (create_collection lib name p).1)
                  (create_collection lib name p).2).1)
              (create_collection_structure t (some (create_collection lib name p).1)
                (create_collection lib name p).2).2 := rfl
      have hcid : (create_collection lib name p).1 = lib.nextId := rfl
      obtain ⟨hsub1, hsub2, hsub3, hsub4, hsub5⟩ :=
        create_collection_structure_spec t (some (create_collection lib name p).1)
          (create_collection lib name p).2
      obtain ⟨hgo1, hgo2, hgo3, hgo4, hgo5⟩ :=
        ccsGo_spec rest p
          (dictUpdate (dictInsert name (create_collection lib name p).1 acc)
            (create_collection_structure t (some (create_collection lib name p).1)
              (create_collection lib name p).2).1)
          (create_collection_structure t (some (create_collection lib name p).1)
            (create_collection lib name p).2).2
      have hlib1c : (create_collection lib name p).2.collections
          = lib.collections ++ [⟨lib.nextId, name, p⟩] := rfl
      have hlib1n : (create_collection lib name p).2.nextId = lib.nextId + 1 := rfl
      have hlib1i : (create_collection lib name p).2.items = lib.items := rfl
      have hlib1ci : (create_collection lib name p).2.collectionItems
          = lib.collectionItems := rfl
      rw [hcid] at hstep hsub1 hsub2 hsub3 hsub4 hsub5 hgo1 hgo2 hgo3 hgo4 hgo5
      rw [hlib1n] at hsub1 hsub2 hsub3
      rw [hlib1c] at hsub2
      rw [hlib1i] at hsub4
      rw [hlib1ci] at hsub5
      rw [hsub3] at hgo1 hgo2 hgo3
      rw [hsub4] at hgo4
      rw [hsub5] at hgo5
      refine ⟨?_, ?_, ?_, ?_, ?_⟩
      · rw [hstep, hgo1, hsub1]
        rw [dictUpdate_collapse _ (dictInsert name lib.nextId acc) []
          (by simp)]
        rw [show dictUpdate (dictInsert name lib.nextId acc) [] =
          dictInsert name lib.nextId acc from rfl]
        rw [show (dfsColsList ((name, t) :: rest) p lib.nextId).map
              (fun c => (c.name, c.collection_id))
            = (name, lib.nextId)
              :: ((dfsColsNode t (some lib.nextId) (lib.nextId + 1)).map
                    (fun c => (c.name, c.collection_id))
                  ++ (dfsColsList rest p (lib.nextId + 1 + sizeT t)).map
                    (fun c => (c.name, c.collection_id))) from by
          simp [dfsColsList]]
        rw [dictUpdate_cons, dictUpdate_append]
      · rw [hstep, hgo2, hsub2]
        rw [show dfsColsList ((name, t) :: rest) p lib.nextId
            = ⟨lib.nextId, name, p⟩
              :: (dfsColsNode t (some lib.nextId) (lib.nextId + 1)
                  ++ dfsColsList rest p (lib.nextId + 1 + sizeT t)) from rfl]
        simp
      · rw [hstep, hgo3]
        show lib.nextId + 1 + sizeT t + sizeL rest = lib.nextId + (1 + sizeT t + sizeL rest)
        omega
      · rw [hstep, hgo4]
      · rw [hstep, hgo5]

end

mutual

theorem dfsColsNode_length (t : TNode) (p : Option Nat) (n : Nat) :
    (dfsColsNode t p n).length = sizeT t := by
  match t with
  | .node cs => exact dfsColsList_length cs p n

theorem dfsColsList_length (cs : List (String × TNode)) (p : Option Nat) (n : Nat) :
    (dfsColsList cs p n).length = sizeL cs := by
  match cs with
  | [] => rfl
  | (name, t) :: rest =>
      show (⟨n, name, p⟩
            :: (dfsColsNode t (some n) (n + 1)
                ++ dfsColsList rest p (n + 1 + sizeT t))).length
          = 1 + sizeT t + sizeL rest
      rw [List.length_cons, List.length_append, dfsColsNode_length,
        dfsColsList_length]
      omega

end

/-! ### Claim C9: duplicate names collapse in the returned map -/

/-- Claim C9: synchronizing any taxonomy creates one collection per entry
(the store's collection count equals the entry count), while the returned
name-to-identifier map holds one entry per distinct name whose value is the
identifier of the last collection created with that name; at the concrete
structure `A` containing a child also named `A`, the map has 1 entry while
2 collections were created, so the reported count is strictly smaller. -/
theorem C9_duplicate_names :
    (∀ (t : TNode) (lib : Library),
        (implement_collection_structure t lib).2.collections.length = sizeT t ∧
        ((implement_collection_structure t lib).1.map Prod.fst).Nodup ∧
        (∀ name, dictLookup name (implement_collection_structure t lib).1
            = lastMatchId (implement_collection_structure t lib).2.collections name)) ∧
    (implement_collection_structure (TNode.node [("A", .node [("A", .node [])])])
        ⟨[], [], [], 0⟩).1.length = 1 ∧
    (implement_collection_structure (TNode.node [("A", .node [("A", .node [])])])
        ⟨[], [], [], 0⟩).2.collections.length = 2 ∧
    sizeT (TNode.node [("A", .node [("A", .node [])])]) = 2 := by
  refine ⟨?_, rfl, rfl, rfl⟩
  intro t lib
  obtain ⟨h1, h2, _, _, _⟩ :=
    create_collection_structure_spec t none (delete_all_collections lib)
  have hcols : (implement_collection_structure t lib).2.collections
      = dfsColsNode t none (delete_all_collections lib).nextId := by
    show (create_collection_structure t none (delete_all_collections lib)).2.collections = _
    rw [h2]
    rfl
  have hmap : (implement_collection_structure t lib).1
      = dictUpdate []
          ((dfsColsNode t none (delete_all_collections lib).nextId).map
            (fun c => (c.name, c.collection_id))) := h1
  refine ⟨?_, ?_, ?_⟩
  · rw [hcols, dfsColsNode_length]
  · rw [hmap]
    exact dictUpdate_keys_nodup _ [] (by simp)
  · intro name
    rw [hmap, hcols, dictUpdate_lookup, lastVal_pairs]
    cases lastMatchId (dfsColsNode t none (delete_all_collections lib).nextId) name with
    | none => rfl
    | some v => rfl

/-! ### Claim C3: the Classification Matcher -/

/-- Every value of the map is the id of a collection in `S`. -/
def valsIn (m : List (String × Nat)) (S : List Collection) : Prop :=
  ∀ k v, dictLookup k m = some v → ∃ c ∈ S, c.collection_id = v

theorem dictLookup_insert_cases (k' k : String) (v : Nat) (m : List (String × Nat))
    (w : Nat) (h : dictLookup k' (dictInsert k v m) = some w) :
    w = v ∨ dictLookup k' m = some w := by
  by_cases hk : k' = k
  · subst hk
    rw [dictLookup_insert_self] at h
    exact Or.inl (Option.some.injEq .. ▸ h).symm
  · rw [dictLookup_insert_other k k' v hk] at h
    exact Or.inr h

theorem valsIn_insert (m : List (String × Nat)) (S : List Collection)
    (k : String) (v : Nat) (hm : valsIn m S) (hv : ∃ c ∈ S, c.collection_id = v) :
    valsIn (dictInsert k v m) S := by
  intro k' w h
  rcases dictLookup_insert_cases k' k v m w h with rfl | h
  · exact hv
  · exact hm k' w h

theorem valsIn_resolveName (name full : String) (S : List Collection) :
    ∀ (cols : List Collection), (∀ c ∈ cols, c ∈ S) →
      ∀ (m : List (String × Nat)), valsIn m S →
        valsIn (resolveName cols name full m) S := by
  intro cols
  induction cols with
  | nil => intro _ m hm; exact hm
  | cons c rest ih =>
      intro hsub m hm
      show valsIn (resolveName rest name full _) S
      refine ih (fun c' hc' => hsub c' (List.mem_cons_of_mem _ hc')) _ ?_
      by_cases hc : c.name = name
      · rw [if_pos hc]
        exact valsIn_insert m S full c.collection_id hm
          ⟨c, hsub c (List.mem_cons_self _ _), rfl⟩
      · rw [if_neg hc]
        exact hm

mutual

theorem fcNode_valsIn (t : TNode) (pre : String) (cols : List Collection)
    (st : List String × List (String × Nat)) (hst : valsIn st.2 cols) :
    valsIn (fcNode t pre cols st).2 cols := by
  match t with
  | .node cs => exact fcList_valsIn cs pre cols st hst

theorem fcList_valsIn (cs : List (String × TNode)) (pre : String)
    (cols : List Collection) (st : List String × List (String × Nat))
    (hst : valsIn st.2 cols) : valsIn (fcList cs pre cols st).2 cols := by
  match cs with
  | [] => exact hst
  | (name, t) :: rest =>
      show valsIn (fcList rest pre cols
          (fcNode t (joinPath pre name) cols
            (st.1 ++ [joinPath pre name],
              resolveName cols name (joinPath pre name) st.2))).2 cols
      refine fcList_valsIn rest pre cols _ ?_
      refine fcNode_valsIn t (joinPath pre name) cols _ ?_
      exact valsIn_resolveName name (joinPath pre name) cols cols (fun c hc => hc) st.2 hst

end

theorem flatten_collections_valsIn (t : TNode) (cols : List Collection) :
    valsIn (flatten_collections t cols).2 cols :=
  fcNode_valsIn t "" cols ([], []) (fun k v h => by simp [dictLookup] at h)

/-- A membership update on a known paper with store-valid collection ids
succeeds, and the paper's membership rows afterwards are exactly those ids
in order. -/
theorem update_item_collections_spec (lib : Library) (pid : Nat)
    (ids : List Nat) (item : Item) (h : findItem lib pid = some item)
    (hval : ∀ id ∈ ids, collMember lib id = true) :
    ∃ lib', update_item_collections lib pid ids = .ok lib' ∧
      (lib'.collectionItems.filter (fun r => r.1 == pid)).map Prod.snd = ids := by
  simp only [update_item_collections, h]
  refine ⟨_, rfl, ?_⟩
  show (((lib.collectionItems.filter (fun r => r.1 != pid))
        ++ ((ids.filter (fun cid => collMember lib cid)).map
              (fun cid => (pid, cid)))).filter (fun r => r.1 == pid)).map Prod.snd
      = ids
  have hf : ids.filter (fun cid => collMember lib cid) = ids :=
    List.filter_eq_self.mpr (fun a ha => hval a ha)
  rw [List.filter_append, filter_ne_then_eq, List.nil_append, hf]
  exact filter_map_pair pid ids

/-- Claim C3: for every known paper and generative reply, the matcher keeps
only the reply lines present in the path-to-identifier map, silently
discarding all others, and never faults: when at least one identifier
resolves it replaces the paper's store membership with exactly those
identifiers in reply order, and when none resolves it leaves the store
completely unchanged and reports a no-match outcome. -/
theorem C3_classification_matcher (t : TNode) (lib : Library) (pid : Nat)
    (reply : List Char) (item : Item) (h : findItem lib pid = some item) :
    ∃ res, classify_paper_in_collections t pid reply lib = .ok res ∧
      (((replyLines reply).filterMap
          (fun c => dictLookup c (flatten_collections t lib.collections).2)) = []
        → res = (lib, false)) ∧
      (((replyLines reply).filterMap
          (fun c => dictLookup c (flatten_collections t lib.collections).2)) ≠ []
        → res.2 = true ∧
          (res.1.collectionItems.filter (fun r => r.1 == pid)).map Prod.snd
            = (replyLines reply).filterMap
                (fun c => dictLookup c (flatten_collections t lib.collections).2)) := by
  by_cases hids : ((replyLines reply).filterMap
      (fun c => dictLookup c (flatten_collections t lib.collections).2)) = []
  · refine ⟨(lib, false), ?_, fun _ => rfl, fun hne => absurd hids hne⟩
    simp only [classify_paper_in_collections, h, hids]
    simp
  · have hval : ∀ id ∈ (replyLines reply).filterMap
        (fun c => dictLookup c (flatten_collections t lib.collections).2),
        collMember lib id = true := by
      intro id hid
      obtain ⟨c, _, hc⟩ := List.mem_filterMap.mp hid
      obtain ⟨col, hcol, hcid⟩ := flatten_collections_valsIn t lib.collections c id hc
      simp only [collMember, List.any_eq_true]
      exact ⟨col, hcol, by simp [hcid]⟩
    obtain ⟨lib', hup, hrows⟩ :=
      update_item_collections_spec lib pid _ item h hval
    refine ⟨(lib', true), ?_, fun heq => absurd heq hids, fun _ => ⟨rfl, hrows⟩⟩
    simp only [classify_paper_in_collections, h]
    rw [if_neg hids, hup]
    rfl

/-- Claim C3 witness: a concrete paper, store and reply where one line
resolves and one is silently discarded. -/
theorem C3_classification_matcher_witness :
    findItem ⟨[⟨1, "Foo", none⟩, ⟨2, "Bar", some 1⟩], [], [⟨7, "p", [], []⟩], 3⟩ 7
        = some ⟨7, "p", [], []⟩ ∧
    ∃ res, classify_paper_in_collections
        (TNode.node [("Foo", .node [("Bar", .node [])])]) 7
        (" Foo/Bar \nUnknownPath".data)
        ⟨[⟨1, "Foo", none⟩, ⟨2, "Bar", some 1⟩], [], [⟨7, "p", [], []⟩], 3⟩ = .ok res ∧
      (((replyLines (" Foo/Bar \nUnknownPath".data)).filterMap
          (fun c => dictLookup c (flatten_collections
            (TNode.node [("Foo", .node [("Bar", .node [])])])
            ([⟨1, "Foo", none⟩, ⟨2, "Bar", some 1⟩] : List Collection)).2)) = []
        → res = (⟨[⟨1, "Foo", none⟩, ⟨2, "Bar", some 1⟩], [], [⟨7, "p", [], []⟩], 3⟩, false)) ∧
      (((replyLines (" Foo/Bar \nUnknownPath".data)).filterMap
          (fun c => dictLookup c (flatten_collections
            (TNode.node [("Foo", .node [("Bar", .node [])])])
            ([⟨1, "Foo", none⟩, ⟨2, "Bar", some 1⟩] : List Collection)).2)) ≠ []
        → res.2 = true ∧
          (res.1.collectionItems.filter (fun r => r.1 == 7)).map Prod.snd
            = (replyLines (" Foo/Bar \nUnknownPath".data)).filterMap
                (fun c => dictLookup c (flatten_collections
                  (TNode.node [("Foo", .node [("Bar", .node [])])])
                  ([⟨1, "Foo", none⟩, ⟨2, "Bar", some 1⟩] : List Collection)).2)) :=
  ⟨rfl, C3_classification_matcher (TNode.node [("Foo", .node [("Bar", .node [])])])
    ⟨[⟨1, "Foo", none⟩, ⟨2, "Bar", some 1⟩], [], [⟨7, "p", [], []⟩], 3⟩ 7
    (" Foo/Bar \nUnknownPath".data) ⟨7, "p", [], []⟩ rfl⟩

/-! ### Claim C1: synchronizing then reading back reproduces the taxonomy -/

/-- The direct entries of a taxonomy node. -/
def tChildren : TNode → List (String × TNode)
  | .node cs => cs

theorem nodeAtNode_eq (t : TNode) (b m : Nat) :
    nodeAtNode t b m = nodeAtList (tChildren t) b m := by
  match t with
  | .node cs => rfl

theorem dfsColsNode_eq (t : TNode) (p : Option Nat) (n : Nat) :
    dfsColsNode t p n = dfsColsList (tChildren t) p n := by
  match t with
  | .node cs => rfl

theorem sizeT_eq (t : TNode) : sizeT t = sizeL (tChildren t) := by
  match t with
  | .node cs => rfl

theorem depthT_eq (t : TNode) : depthT t = depthL (tChildren t) := by
  match t with
  | .node cs => rfl

mutual

theorem nodeAtNode_range (t : TNode) (n m : Nat) (t' : TNode)
    (h : nodeAtNode t n m = some t') : n ≤ m ∧ m < n + sizeT t := by
  match t with
  | .node cs =>
      have := nodeAtList_range cs n m t' h
      rw [sizeT_eq]
      exact this

theorem nodeAtList_range (cs : List (String × TNode)) (n m : Nat) (t' : TNode)
    (h : nodeAtList cs n m = some t') : n ≤ m ∧ m < n + sizeL cs := by
  match cs with
  | [] => simp [nodeAtList] at h
  | (name, t) :: rest =>
      rw [show nodeAtList ((name, t) :: rest) n m
          = (if m = n then some t
             else if m < n + 1 + sizeT t then nodeAtNode t (n + 1) m
             else nodeAtList rest (n + 1 + sizeT t) m) from rfl] at h
      by_cases h1 : m = n
      · subst h1
        refine ⟨le_refl m, ?_⟩
        show m < m + (1 + sizeT t + sizeL rest)
        omega
      · rw [if_neg h1] at h
        by_cases h2 : m < n + 1 + sizeT t
        · rw [if_pos h2] at h
          have := nodeAtNode_range t (n + 1) m t' h
          show n ≤ m ∧ m < n + (1 + sizeT t + sizeL rest)
          omega
        · rw [if_neg h2] at h
          have := nodeAtList_range rest (n + 1 + sizeT t) m t' h
          show n ≤ m ∧ m < n + (1 + sizeT t + sizeL rest)
          omega

end

theorem directAt_range (d : List (String × TNode)) :
    ∀ (b j : Nat) (t₀ : TNode), directAt d b j = some t₀ → b ≤ j ∧ j < b + sizeL d := by
  induction d with
  | nil => intro b j t₀ h; simp [directAt] at h
  | cons e rest ih =>
      obtain ⟨nm, t₁⟩ := e
      intro b j t₀ h
      rw [show directAt ((nm, t₁) :: rest) b j
          = (if j = b then some t₁ else directAt rest (b + 1 + sizeT t₁) j) from rfl] at h
      by_cases h1 : j = b
      · subst h1
        refine ⟨le_refl j, ?_⟩
        show j < j + (1 + sizeT t₁ + sizeL rest)
        omega
      · rw [if_neg h1] at h
        have := ih (b + 1 + sizeT t₁) j t₀ h
        show b ≤ j ∧ j < b + (1 + sizeT t₁ + sizeL rest)
        omega

theorem directAt_depth (d : List (String × TNode)) :
    ∀ (b j : Nat) (t₀ : TNode), directAt d b j = some t₀ →
      depthT t₀ + 1 ≤ depthL d := by
  induction d with
  | nil => intro b j t₀ h; simp [directAt] at h
  | cons e rest ih =>
      obtain ⟨nm, t₁⟩ := e
      intro b j t₀ h
      rw [show directAt ((nm, t₁) :: rest) b j
          = (if j = b then some t₁ else directAt rest (b + 1 + sizeT t₁) j) from rfl] at h
      show depthT t₀ + 1 ≤ max (1 + depthT t₁) (depthL rest)
      by_cases h1 : j = b
      · rw [if_pos h1] at h
        injection h with h'
        subst h'
        omega
      · rw [if_neg h1] at h
        have := ih (b + 1 + sizeT t₁) j t₀ h
        omega

mutual

theorem dfsColsNode_parents (t : TNode) (p : Option Nat) (n : Nat) :
    ∀ c ∈ dfsColsNode t p n,
      c.parent_id = p ∨ ∃ j, c.parent_id = some j ∧ n ≤ j ∧ j < n + sizeT t := by
  match t with
  | .node cs =>
      intro c hc
      have := dfsColsList_parents cs p n c hc
      rw [sizeT_eq]
      exact this

theorem dfsColsList_parents (cs : List (String × TNode)) (p : Option Nat) (n : Nat) :
    ∀ c ∈ dfsColsList cs p n,
      c.parent_id = p ∨ ∃ j, c.parent_id = some j ∧ n ≤ j ∧ j < n + sizeL cs := by
  match cs with
  | [] => intro c hc; simp [dfsColsList] at hc
  | (name, t) :: rest =>
      intro c hc
      rw [show dfsColsList ((name, t) :: rest) p n
          = ⟨n, name, p⟩
            :: (dfsColsNode t (some n) (n + 1)
                ++ dfsColsList rest p (n + 1 + sizeT t)) from rfl] at hc
      rcases List.mem_cons.mp hc with rfl | hc
      · exact Or.inl rfl
      · rcases List.mem_append.mp hc with hc | hc
        · rcases dfsColsNode_parents t (some n) (n + 1) c hc with h | ⟨j, hj, hj1, hj2⟩
          · refine Or.inr ⟨n, h, le_refl n, ?_⟩
            show n < n + (1 + sizeT t + sizeL rest)
            omega
          · refine Or.inr ⟨j, hj, by omega, ?_⟩
            show j < n + (1 + sizeT t + sizeL rest)
            omega
        · rcases dfsColsList_parents rest p (n + 1 + sizeT t) c hc with h | ⟨j, hj, hj1, hj2⟩
          · exact Or.inl h
          · refine Or.inr ⟨j, hj, by omega, ?_⟩
            show j < n + (1 + sizeT t + sizeL rest)
            omega

end

mutual

theorem dfsColsNode_filter_q (t : TNode) (p : Option Nat) (n : Nat) (q : Option Nat)
    (hq : ∀ j, q = some j → j < n) :
    (dfsColsNode t p n).filter (fun c => c.parent_id = q)
      = if q = p then topRows (tChildren t) p n else [] := by
  match t with
  | .node cs => exact dfsColsList_filter_q cs p n q hq

theorem dfsColsList_filter_q (cs : List (String × TNode)) (p : Option Nat) (n : Nat)
    (q : Option Nat) (hq : ∀ j, q = some j → j < n) :
    (dfsColsList cs p n).filter (fun c => c.parent_id = q)
      = if q = p then topRows cs p n else [] := by
  match cs with
  | [] =>
      rw [show dfsColsList [] p n = [] from rfl, show topRows [] p n = [] from rfl]
      cases Decidable.em (q = p) with
      | inl h => rw [if_pos h]; rfl
      | inr h => rw [if_neg h]; rfl
  | (name, t) :: rest =>
      rw [show dfsColsList ((name, t) :: rest) p n
          = ⟨n, name, p⟩
            :: (dfsColsNode t (some n) (n + 1)
                ++ dfsColsList rest p (n + 1 + sizeT t)) from rfl]
      have hmid : (dfsColsNode t (some n) (n + 1)).filter
          (fun c => c.parent_id = q) = [] := by
        rw [dfsColsNode_filter_q t (some n) (n + 1) q (fun j hj => by
          have := hq j hj; omega)]
        rw [if_neg (by
          intro hqn
          have := hq n hqn
          omega)]
      have hrest := dfsColsList_filter_q rest p (n + 1 + sizeT t) q (fun j hj => by
        have := hq j hj; omega)
      by_cases hqp : q = p
      · rw [List.filter_cons_of_pos (by
          show decide ((⟨n, name, p⟩ : Collection).parent_id = q) = true
          simp [hqp])]
        rw [List.filter_append, hmid, hrest, if_pos hqp, if_pos hqp]
        rw [show topRows ((name, t) :: rest) p n
            = ⟨n, name, p⟩ :: topRows rest p (n + 1 + sizeT t) from rfl]
        rw [List.nil_append]
      · rw [List.filter_cons_of_neg (by
          show ¬ decide ((⟨n, name, p⟩ : Collection).parent_id = q) = true
          simp only [decide_eq_true_eq]
          exact fun h => hqp h.symm)]
        rw [List.filter_append, hmid, hrest, if_neg hqp, if_neg hqp]
        rw [List.nil_append]

end

theorem filter_parent_nil (L : List Collection) (q : Option Nat)
    (h : ∀ c ∈ L, ¬ c.parent_id = q) :
    L.filter (fun c => c.parent_id = q) = [] := by
  induction L with
  | nil => rfl
  | cons c rest ih =>
      rw [List.filter_cons_of_neg (by
        show ¬ decide (c.parent_id = q) = true
        simp only [decide_eq_true_eq]
        exact h c (List.mem_cons_self _ _))]
      exact ih (fun c' hc' => h c' (List.mem_cons_of_mem _ hc'))

mutual

theorem dfsColsNode_filter_at (t : TNode) (p : Option Nat) (n m : Nat) (t' : TNode)
    (hp : ∀ j, p = some j → j < n) (hnode : nodeAtNode t n m = some t') :
    (dfsColsNode t p n).filter (fun c => c.parent_id = some m)
      = topRows (tChildren t') (some m) (m + 1) := by
  match t with
  | .node cs => exact dfsColsList_filter_at cs p n m t' hp hnode

theorem dfsColsList_filter_at (cs : List (String × TNode)) (p : Option Nat)
    (n m : Nat) (t' : TNode) (hp : ∀ j, p = some j → j < n)
    (hnode : nodeAtList cs n m = some t') :
    (dfsColsList cs p n).filter (fun c => c.parent_id = some m)
      = topRows (tChildren t') (some m) (m + 1) := by
  match cs with
  | [] => simp [nodeAtList] at hnode
  | (name, t) :: rest =>
      have hrange := nodeAtList_range ((name, t) :: rest) n m t' hnode
      rw [show dfsColsList ((name, t) :: rest) p n
          = ⟨n, name, p⟩
            :: (dfsColsNode t (some n) (n + 1)
                ++ dfsColsList rest p (n + 1 + sizeT t)) from rfl]
      have hphead : ¬ ((⟨n, name, p⟩ : Collection).parent_id = some m) := by
        intro hcon
        have := hp m hcon
        omega
      rw [List.filter_cons_of_neg (by
        show ¬ decide ((⟨n, name, p⟩ : Collection).parent_id = some m) = true
        simp only [decide_eq_true_eq]
        exact hphead)]
      rw [List.filter_append]
      rw [show nodeAtList ((name, t) :: rest) n m
          = (if m = n then some t
             else if m < n + 1 + sizeT t then nodeAtNode t (n + 1) m
             else nodeAtList rest (n + 1 + sizeT t) m) from rfl] at hnode
      by_cases h1 : m = n
      · rw [if_pos h1] at hnode
        injection hnode with h'
        subst h'
        subst h1
        have hmid := dfsColsNode_filter_q t (some m) (m + 1) (some m)
          (fun j hj => by injection hj with h''; omega)
        rw [if_pos rfl] at hmid
        have hrest := dfsColsList_filter_q rest p (m + 1 + sizeT t) (some m)
          (fun j hj => by injection hj with h''; omega)
        rw [if_neg (fun hqp => hphead hqp.symm)] at hrest
        rw [hmid, hrest, List.append_nil]
      · rw [if_neg h1] at hnode
        by_cases h2 : m < n + 1 + sizeT t
        · rw [if_pos h2] at hnode
          have hr := nodeAtNode_range t (n + 1) m t' hnode
          have hmid := dfsColsNode_filter_at t (some n) (n + 1) m t'
            (fun j hj => by injection hj with h''; omega) hnode
          have hrest : (dfsColsList rest p (n + 1 + sizeT t)).filter
              (fun c => c.parent_id = some m) = [] := by
            refine filter_parent_nil _ _ ?_
            intro c hc
            rcases dfsColsList_parents rest p (n + 1 + sizeT t) c hc
              with hpar | ⟨j, hj, hj1, hj2⟩
            · rw [hpar]
              intro hcon
              have := hp m hcon
              omega
            · rw [hj]
              intro hcon
              injection hcon with h''
              omega
          rw [hmid, hrest, List.append_nil]
        · rw [if_neg h2] at hnode
          have hr := nodeAtList_range rest (n + 1 + sizeT t) m t' hnode
          have hmid : (dfsColsNode t (some n) (n + 1)).filter
              (fun c => c.parent_id = some m) = [] := by
            refine filter_parent_nil _ _ ?_
            intro c hc
            rcases dfsColsNode_parents t (some n) (n + 1) c hc
              with hpar | ⟨j, hj, hj1, hj2⟩
            · rw [hpar]
              intro hcon
              injection hcon with h''
              omega
            · rw [hj]
              intro hcon
              injection hcon with h''
              omega
          have hrest := dfsColsList_filter_at rest p (n + 1 + sizeT t) m t'
            (fun j hj => by have := hp j hj; omega) hnode
          rw [hmid, hrest, List.nil_append]

end

theorem directAt_nodeAtList (cs : List (String × TNode)) :
    ∀ (n j : Nat) (t₀ : TNode), directAt cs n j = some t₀ →
      nodeAtList cs n j = some t₀ := by
  induction cs with
  | nil => intro n j t₀ h; simp [directAt] at h
  | cons e rest ih =>
      obtain ⟨nm, t⟩ := e
      intro n j t₀ h
      rw [show directAt ((nm, t) :: rest) n j
          = (if j = n then some t else directAt rest (n + 1 + sizeT t) j) from rfl] at h
      rw [show nodeAtList ((nm, t) :: rest) n j
          = (if j = n then some t
             else if j < n + 1 + sizeT t then nodeAtNode t (n + 1) j
             else nodeAtList rest (n + 1 + sizeT t) j) from rfl]
      by_cases h1 : j = n
      · rw [if_pos h1] at h
        rw [if_pos h1]
        exact h
      · rw [if_neg h1] at h
        have hr := directAt_range rest (n + 1 + sizeT t) j t₀ h
        rw [if_neg h1, if_neg (by omega)]
        exact ih (n + 1 + sizeT t) j t₀ h

mutual

theorem nodeAtList_child (cs : List (String × TNode)) (n m : Nat) (t' : TNode)
    (h : nodeAtList cs n m = some t') (j : Nat) (t₀ : TNode)
    (hd : directAt (tChildren t') (m + 1) j = some t₀) :
    nodeAtList cs n j = some t₀ := by
  match cs with
  | [] => simp [nodeAtList] at h
  | (nm, t) :: rest =>
      rw [show nodeAtList ((nm, t) :: rest) n m
          = (if m = n then some t
             else if m < n + 1 + sizeT t then nodeAtNode t (n + 1) m
             else nodeAtList rest (n + 1 + sizeT t) m) from rfl] at h
      rw [show nodeAtList ((nm, t) :: rest) n j
          = (if j = n then some t
             else if j < n + 1 + sizeT t then nodeAtNode t (n + 1) j
             else nodeAtList rest (n + 1 + sizeT t) j) from rfl]
      by_cases h1 : m = n
      · rw [if_pos h1] at h
        injection h with h'
        subst h'
        subst h1
        have hdr := directAt_range (tChildren t) (m + 1) j t₀ hd
        have hsz : sizeT t = sizeL (tChildren t) := sizeT_eq t
        rw [if_neg (by omega), if_pos (by omega)]
        rw [nodeAtNode_eq]
        exact directAt_nodeAtList (tChildren t) (m + 1) j t₀ hd
      · rw [if_neg h1] at h
        by_cases h2 : m < n + 1 + sizeT t
        · rw [if_pos h2] at h
          have hres := nodeAtNode_child t (n + 1) m t' h j t₀ hd
          have hr := nodeAtNode_range t (n + 1) j t₀ hres
          rw [if_neg (by omega), if_pos (by omega)]
          exact hres
        · rw [if_neg h2] at h
          have hres := nodeAtList_child rest (n + 1 + sizeT t) m t' h j t₀ hd
          have hr := nodeAtList_range rest (n + 1 + sizeT t) j t₀ hres
          rw [if_neg (by omega), if_neg (by omega)]
          exact hres

theorem nodeAtNode_child (t : TNode) (n m : Nat) (t' : TNode)
    (h : nodeAtNode t n m = some t') (j : Nat) (t₀ : TNode)
    (hd : directAt (tChildren t') (m + 1) j = some t₀) :
    nodeAtNode t n j = some t₀ := by
  match t with
  | .node cs => exact nodeAtList_child cs n m t' h j t₀ hd

end

theorem topRows_map (F : Nat → TNode) :
    ∀ (d : List (String × TNode)) (b : Nat) (q : Option Nat),
      (∀ j t₀, directAt d b j = some t₀ → F j = t₀) →
      (topRows d q b).map (fun c => (c.name, F c.collection_id)) = d := by
  intro d
  induction d with
  | nil => intro b q _; rfl
  | cons e rest ih =>
      obtain ⟨nm, t₁⟩ := e
      intro b q h
      rw [show topRows ((nm, t₁) :: rest) q b
          = ⟨b, nm, q⟩ :: topRows rest q (b + 1 + sizeT t₁) from rfl]
      rw [List.map_cons]
      have hhead : F b = t₁ := h b t₁ (by
        rw [show directAt ((nm, t₁) :: rest) b b
            = (if b = b then some t₁ else directAt rest (b + 1 + sizeT t₁) b) from rfl]
        rw [if_pos rfl])
      have hrest := ih (b + 1 + sizeT t₁) q (fun j t₀ hj => by
        refine h j t₀ ?_
        have hr := directAt_range rest (b + 1 + sizeT t₁) j t₀ hj
        rw [show directAt ((nm, t₁) :: rest) b j
            = (if j = b then some t₁ else directAt rest (b + 1 + sizeT t₁) j) from rfl]
        rw [if_neg (by omega)]
        exact hj)
      rw [hrest]
      show (nm, F b) :: rest = (nm, t₁) :: rest
      rw [hhead]

/-- Reading back `buildForest` from the freshly written DFS rows reproduces
the taxonomy, both below an internal node and at the root, given enough
fuel for the depth. -/
theorem buildForest_spec : ∀ (fuel : Nat) (cs : List (String × TNode)) (n : Nat),
    (∀ m t', nodeAtList cs n m = some t' → depthT t' + 1 ≤ fuel →
        buildForest (dfsColsList cs none n) fuel (some m) = t') ∧
    (depthL cs + 1 ≤ fuel →
        buildForest (dfsColsList cs none n) fuel none = .node cs) := by
  intro fuel
  induction fuel with
  | zero =>
      intro cs n
      exact ⟨fun m t' _ hdep => absurd hdep (by omega),
        fun hdep => absurd hdep (by omega)⟩
  | succ fuel ih =>
      intro cs n
      constructor
      · intro m t' hnode hdepth
        show TNode.node
            (((dfsColsList cs none n).filter (fun c => c.parent_id = some m)).map
              (fun c => (c.name,
                buildForest (dfsColsList cs none n) fuel (some c.collection_id)))) = t'
        rw [dfsColsList_filter_at cs none n m t' (by intro j hj; cases hj) hnode]
        cases t' with
        | node d =>
            show TNode.node
                ((topRows d (some m) (m + 1)).map
                  (fun c => (c.name,
                    buildForest (dfsColsList cs none n) fuel (some c.collection_id))))
              = TNode.node d
            refine congrArg TNode.node ?_
            refine topRows_map
              (fun id => buildForest (dfsColsList cs none n) fuel (some id))
              d (m + 1) (some m) ?_
            intro j t₀ hdj
            have hnav := nodeAtList_child cs n m (.node d) hnode j t₀ hdj
            have hdep := directAt_depth d (m + 1) j t₀ hdj
            have hdepth' : depthL d + 1 ≤ fuel + 1 := hdepth
            exact (ih cs n).1 j t₀ hnav (by omega)
      · intro hdepth
        show TNode.node
            (((dfsColsList cs none n).filter (fun c => c.parent_id = none)).map
              (fun c => (c.name,
                buildForest (dfsColsList cs none n) fuel (some c.collection_id)))) = _
        rw [dfsColsList_filter_q cs none n none (by intro j hj; cases hj)]
        rw [if_pos rfl]
        refine congrArg TNode.node ?_
        refine topRows_map
          (fun id => buildForest (dfsColsList cs none n) fuel (some id))
          cs n none ?_
        intro j t₀ hdj
        have hnav := directAt_nodeAtList cs n j t₀ hdj
        have hdep := directAt_depth cs n j t₀ hdj
        exact (ih cs n).1 j t₀ hnav (by omega)

/-- Claim C1: synchronizing any store with a TaxonomyNode (delete every
collection, then recursively create one per entry) and reading the
resulting collection rows back by their parent links reproduces exactly the
input taxonomy: one collection per entry, top-level entries parentless,
nested entries parented to the collection created for their enclosing
entry — a round-trip on names and structure, not on identifiers. -/
theorem C1_sync_round_trip (t : TNode) (lib : Library) :
    buildForest (implement_collection_structure t lib).2.collections
        (depthT t + 1) none = t ∧
    (implement_collection_structure t lib).2.collections.length = sizeT t := by
  obtain ⟨_, h2, _, _, _⟩ :=
    create_collection_structure_spec t none (delete_all_collections lib)
  have hc : (implement_collection_structure t lib).2.collections
      = dfsColsNode t none (delete_all_collections lib).nextId := by
    show (create_collection_structure t none (delete_all_collections lib)).2.collections = _
    rw [h2]
    rfl
  rw [hc]
  refine ⟨?_, dfsColsNode_length t none _⟩
  cases t with
  | node cs =>
      show buildForest (dfsColsList cs none (delete_all_collections lib).nextId)
          (depthL cs + 1) none = TNode.node cs
      exact (buildForest_spec (depthL cs + 1) cs (delete_all_collections lib).nextId).2
        (le_refl _)

end ZoteroOrganizer
